import Mathlib

/-!
Verification development for bacula-resource-auto-creator.py.

The script correlates tape-library drive bays with physical drive device
nodes by loading tapes and probing drives.  The parts embedded here are the
changer-status parser (`loaded`, `get_random_slot`), the drive probe
(`isReady`) and the per-library discovery loop (lines 614-669 of the
source), together with the shell/regex text processing they rely on.

Strings are modelled as `List Char`.  Each Python regular-expression
operation of the source is compiled, pattern by pattern, into an explicit
recursive matcher with the backtracking (leftmost, greedy) semantics of the
`re` module; shell `grep` filters are modelled line by line, and a
pipeline's exit status is the exit status of its last `grep` (1 when it
selects no line).  External commands (mtx/mt) are modelled by an
environment of oracles giving each command's output text and return code.
-/

namespace BRAC

open scoped List

/-- Character class of the Python regex class backslash-w, restricted to
ASCII as barcodes are: letters, digits and underscore. -/
def isWordChar (c : Char) : Bool := c.isAlphanum || c = '_'

/-- Whitespace recognised by Python str.split() and str.rstrip() defaults
(the ASCII ones: space, tab, line feed, carriage return). -/
def isPySpace (c : Char) : Bool := c = ' ' || c = '\t' || c = '\n' || c = '\r'

/-- Python str.rstrip(): drop trailing whitespace. -/
def rstrip (s : List Char) : List Char := (s.reverse.dropWhile isPySpace).reverse

/-- Helper of pySplit: the accumulator holds the current token reversed. -/
def pySplitAux : List Char → List Char → List (List Char)
  | [], acc => if acc = [] then [] else [acc.reverse]
  | c :: rest, acc =>
    if isPySpace c then
      if acc = [] then pySplitAux rest [] else acc.reverse :: pySplitAux rest []
    else pySplitAux rest (c :: acc)

/-- Python str.split() with no argument: maximal runs of non-whitespace. -/
def pySplit (s : List Char) : List (List Char) := pySplitAux s []

/-- Helper of splitNl: accumulate the current line reversed. -/
def splitNlAux : List Char → List Char → List (List Char)
  | [], acc => [acc.reverse]
  | c :: rest, acc =>
    if c = '\n' then acc.reverse :: splitNlAux rest [] else splitNlAux rest (c :: acc)

/-- Split a text into lines at line feeds (like str.split of a newline:
a trailing newline yields a final empty entry, which no grep keeps). -/
def splitNl (s : List Char) : List (List Char) := splitNlAux s []

/-- Join lines the way grep emits them: every line followed by a newline. -/
def unlines (ls : List (List Char)) : List Char :=
  ls.foldr (fun l acc => l ++ '\n' :: acc) []

/-- Greedy regex dot-star within one line: the longest newline-free prefix. -/
def takeToNl (s : List Char) : List Char := s.takeWhile (fun c => c ≠ '\n')

/-- Does lit occur (as a contiguous run) anywhere in the text? -/
def occursB (lit : List Char) : List Char → Bool
  | [] => lit.isEmpty
  | c :: rest => lit.isPrefixOf (c :: rest) || occursB lit rest

theorem isPrefixOf_iff {α : Type} [BEq α] [LawfulBEq α] {l₁ l₂ : List α} :
    l₁.isPrefixOf l₂ = true ↔ l₁ <+: l₂ :=
  List.isPrefixOf_iff_prefix

theorem take_pfx {α : Type} (n : Nat) (l : List α) : l.take n <+: l :=
  ⟨l.drop n, List.take_append_drop n l⟩

theorem eq_append_drop_of_pfx {α : Type} {l s : List α} (h : l <+: s) :
    s = l ++ s.drop l.length := by
  obtain ⟨t, ht⟩ := h
  subst ht
  rw [List.drop_left]

/-- Fuelled scan for countLit; the fuel only bounds the recursion depth
and any fuel of at least the text length gives the scan's value. -/
def countLitAux (lit : List Char) : Nat → List Char → Nat
  | 0, _ => 0
  | _ + 1, [] => 0
  | fuel + 1, c :: rest =>
    if lit ≠ [] ∧ lit.isPrefixOf (c :: rest) then
      1 + countLitAux lit fuel ((c :: rest).drop lit.length)
    else countLitAux lit fuel rest

/-- Count of non-overlapping occurrences of a literal, scanning left to
right, as re.findall of a literal pattern returns: used by the source for
num_drives = len(re.findall('Data Transfer Element', status)). -/
def countLit (lit s : List Char) : Nat := countLitAux lit s.length s

def seLit : List Char := "Storage Element ".data
def fullLit : List Char := ":Full".data
def clnLit : List Char := "CLN".data

/-- At-position test for the grep basic regex of the source pipeline,
"Storage Element [0-9] one-to-three-times :Full": the literal, then one to
three digits, then ":Full". -/
def grepSEHere (s : List Char) : Bool :=
  seLit.isPrefixOf s &&
    (match s.drop 16 with
     | d1 :: r1 =>
       d1.isDigit &&
         (fullLit.isPrefixOf r1 ||
           (match r1 with
            | d2 :: r2 =>
              d2.isDigit &&
                (fullLit.isPrefixOf r2 ||
                  (match r2 with
                   | d3 :: r3 => d3.isDigit && fullLit.isPrefixOf r3
                   | [] => false))
            | [] => false))
     | [] => false)

/-- Does a position-wise test hold somewhere in the text? -/
def anyPos (p : List Char → Bool) : List Char → Bool
  | [] => p []
  | c :: rest => p (c :: rest) || anyPos p rest

/-- grep "Storage Element [0-9] one-to-three-times :Full" on one line. -/
def grepSE13 (line : List Char) : Bool := anyPos grepSEHere line

/-- The lines the shell pipeline of get_random_slot keeps: first grep
selects storage-element Full lines, second grep -v drops lines containing
"CLN". -/
def keptLines (text : List Char) : List (List Char) :=
  (splitNl text).filter (fun l => grepSE13 l && !occursB clnLit l)

/-- Return code of the pipeline: the exit status of the last grep, which
is 1 exactly when it selected no line. -/
def pipeRC (text : List Char) : Int := if keptLines text = [] then 1 else 0

/-- Greedy match of regex dot-star followed by a space: consumes through
the last space of the newline-free prefix, or fails if there is none.
Returns the number of characters consumed (at least 1). -/
def dotStarSpaceLen : List Char → Option Nat
  | [] => none
  | c :: rest =>
    if c = '\n' then none
    else
      match dotStarSpaceLen rest with
      | some n => some (n + 1)
      | none => if c = ' ' then some 1 else none

theorem dotStarSpaceLen_bounds {s : List Char} {n : Nat}
    (h : dotStarSpaceLen s = some n) : 1 ≤ n ∧ n ≤ s.length := by
  induction s generalizing n with
  | nil => simp [dotStarSpaceLen] at h
  | cons c rest ih =>
    simp only [dotStarSpaceLen] at h
    split at h
    · exact absurd h (by simp)
    · split at h
      · rename_i m hm
        obtain ⟨h1, h2⟩ := ih hm
        simp only [Option.some.injEq] at h
        simp only [List.length_cons]
        omega
      · split at h
        · simp only [Option.some.injEq] at h
          simp only [List.length_cons]
          omega
        · exact absurd h (by simp)

/-- Match ":Full" then greedy dot-star then a space; consumed length. -/
def afterFullLen (s : List Char) : Option Nat :=
  if fullLit.isPrefixOf s then (dotStarSpaceLen (s.drop 5)).map (· + 5) else none

theorem afterFullLen_bounds {s : List Char} {n : Nat}
    (h : afterFullLen s = some n) : 6 ≤ n ∧ n ≤ s.length := by
  unfold afterFullLen at h
  split at h
  · rename_i hpre
    rcases Option.map_eq_some'.mp h with ⟨m, hm, hn⟩
    obtain ⟨h1, h2⟩ := dotStarSpaceLen_bounds hm
    have hlen : 5 ≤ s.length := by
      have := (isPrefixOf_iff.mp hpre).length_le
      simpa [fullLit] using this
    simp only [List.length_drop] at h2
    omega
  · exact absurd h (by simp)

/-- The greedy optional non-newline character of the findall pattern,
tried with the character consumed: the character, ":Full", greedy
dot-star, a space.  The 18 counts the 16-character literal, the digit and
this character. -/
def seOptCharLen : List Char → Option Nat
  | [] => none
  | c :: s3 => if c = '\n' then none else (afterFullLen s3).map (· + 18)

theorem seOptCharLen_bounds {s : List Char} {n : Nat}
    (h : seOptCharLen s = some n) : 18 ≤ n ∧ n ≤ s.length + 17 := by
  cases s with
  | nil => simp [seOptCharLen] at h
  | cons c s3 =>
    simp only [seOptCharLen] at h
    split at h
    · exact absurd h (by simp)
    · rcases Option.map_eq_some'.mp h with ⟨m, hm, hn⟩
      obtain ⟨h1, h2⟩ := afterFullLen_bounds hm
      simp only [List.length_cons]
      omega

/-- At-position match length of the Python findall pattern
"Storage Element [0-9].?:Full.* " of get_random_slot: the literal, a
digit, a greedy optional non-newline character, ":Full", then greedy
dot-star and a space.  The optional character is tried first and dropped
on backtracking, as re does. -/
def seMatchLen (s : List Char) : Option Nat :=
  if seLit.isPrefixOf s then
    match s.drop 16 with
    | [] => none
    | d :: s2 =>
      if d.isDigit then
        match seOptCharLen s2 with
        | some n => some n
        | none => (afterFullLen s2).map (· + 17)
      else none
  else none

theorem seMatchLen_bounds {s : List Char} {n : Nat}
    (h : seMatchLen s = some n) : 17 ≤ n ∧ n ≤ s.length := by
  unfold seMatchLen at h
  split at h
  · rename_i hpre
    have hlen16 : 16 ≤ s.length := by
      have := (isPrefixOf_iff.mp hpre).length_le
      simpa [seLit] using this
    split at h
    · exact absurd h (by simp)
    · rename_i d s2 hds
      have hlen : s.length = 17 + s2.length := by
        have := congrArg List.length hds
        simp only [List.length_drop, List.length_cons] at this
        omega
      split at h
      · split at h
        · rename_i m hm
          obtain ⟨h1, h2⟩ := seOptCharLen_bounds hm
          simp only [Option.some.injEq] at h
          omega
        · rcases Option.map_eq_some'.mp h with ⟨m, hm, hn⟩
          obtain ⟨h1, h2⟩ := afterFullLen_bounds hm
          omega
      · exact absurd h (by simp)
  · exact absurd h (by simp)

theorem seMatchLen_pos {s : List Char} {n : Nat} (h : seMatchLen s = some n) :
    1 ≤ n ∧ s ≠ [] := by
  obtain ⟨h1, h2⟩ := seMatchLen_bounds h
  refine ⟨by omega, ?_⟩
  intro hs
  subst hs
  simp at h2
  omega

/-- Fuelled scan for pyFindallSE; every match consumes at least one
character, so any fuel of at least the text length gives the scan's
value. -/
def pyFindallAux : Nat → List Char → List (List Char)
  | 0, _ => []
  | _ + 1, [] => []
  | fuel + 1, c :: rest =>
    match seMatchLen (c :: rest) with
    | some n => (c :: rest).take n :: pyFindallAux fuel ((c :: rest).drop n)
    | none => pyFindallAux fuel rest

/-- re.findall of the storage-element pattern: scan left to right, at a
match emit the matched text and continue after it, else advance one
character. -/
def pyFindallSE (s : List Char) : List (List Char) := pyFindallAux s.length s

/-- The greedy optional non-newline character of the sub pattern, tried
with the character consumed: the character, ":Full", then greedy dot-star
to the end of the line.  The 23 counts the 16-character literal, the
digit, this character and ":Full".  Returns consumed length and the
character as the tail of the captured group. -/
def seSubWith : List Char → Option (Nat × List Char)
  | [] => none
  | c :: s3 =>
    if c = '\n' then none
    else if fullLit.isPrefixOf s3 then
      some (23 + (takeToNl (s3.drop 5)).length, [c])
    else none

/-- At-position match of the Python sub pattern
"Storage Element ([0-9].?):Full.*" used to extract the slot: like the
findall pattern but the trailing greedy dot-star runs to the end of the
line with no final space required.  Returns consumed length and the
captured group. -/
def seSubMatch (s : List Char) : Option (Nat × List Char) :=
  if seLit.isPrefixOf s then
    match s.drop 16 with
    | [] => none
    | d :: s2 =>
      if d.isDigit then
        match seSubWith s2 with
        | some (n, g) => some (n, d :: g)
        | none =>
          if fullLit.isPrefixOf s2 then
            some (22 + (takeToNl (s2.drop 5)).length, [d])
          else none
      else none
  else none

theorem seSubWith_pos {s : List Char} {n : Nat} {g : List Char}
    (h : seSubWith s = some (n, g)) : 1 ≤ n := by
  cases s with
  | nil => simp [seSubWith] at h
  | cons c s3 =>
    simp only [seSubWith] at h
    split at h
    · exact absurd h (by simp)
    · split at h
      · simp only [Option.some.injEq, Prod.mk.injEq] at h
        omega
      · exact absurd h (by simp)

theorem seSubMatch_pos {s : List Char} {n : Nat} {g : List Char}
    (h : seSubMatch s = some (n, g)) : 1 ≤ n := by
  unfold seSubMatch at h
  split at h
  · split at h
    · exact absurd h (by simp)
    · rename_i d s2 hds
      split at h
      · split at h
        · rename_i m w hr
          simp only [Option.some.injEq, Prod.mk.injEq] at h
          obtain ⟨h1, _⟩ := h
          subst h1
          exact seSubWith_pos hr
        · split at h
          · simp only [Option.some.injEq, Prod.mk.injEq] at h
            omega
          · exact absurd h (by simp)
      · exact absurd h (by simp)
  · exact absurd h (by simp)

/-- Fuelled scan for subSlot; every match consumes at least one
character, so any fuel of at least the text length gives the scan's
value. -/
def subSlotAux : Nat → List Char → List Char
  | 0, s => s
  | _ + 1, [] => []
  | fuel + 1, c :: rest =>
    match seSubMatch (c :: rest) with
    | some (n, g) => g ++ subSlotAux fuel ((c :: rest).drop n)
    | none => c :: subSlotAux fuel rest

/-- re.sub("Storage Element ([0-9].?):Full.*", backreference 1, s): scan
left to right, replace each match by its captured group, copy other
characters. -/
def subSlot (s : List Char) : List Char := subSlotAux s.length s

def volTagLit : List Char := ":VolumeTag=".data

/-- Suffix after the last occurrence of ":VolumeTag=" in a line, if any:
the greedy leading dot-star of the sub pattern picks the last occurrence,
and the captured group then runs to the end of the line. -/
def afterLastTag : List Char → Option (List Char)
  | [] => none
  | c :: rest =>
    match afterLastTag rest with
    | some r => some r
    | none =>
      if volTagLit.isPrefixOf (c :: rest) then some ((c :: rest).drop 11)
      else none

/-- re.sub(".*:VolumeTag=(.*).*", backreference 1, line) restricted to one
line: a line containing the tag is replaced by the text after its last
tag, a line without it is left unchanged (no match). -/
def subVolLine (l : List Char) : List Char :=
  match afterLastTag l with
  | some r => r
  | none => l

/-- Join lines with newlines, no trailing newline. -/
def joinNl : List (List Char) → List Char
  | [] => []
  | [l] => l
  | l :: ls => l ++ '\n' :: joinNl ls

/-- re.sub(".*:VolumeTag=(.*).*", backreference 1, s): since the dot of
the pattern does not cross newlines and the pattern must reach a line end,
the substitution acts line by line. -/
def subVol (s : List Char) : List Char := joinNl ((splitNl s).map subVolLine)

/-- Errors a run can end in: sys.exit with a code (chk_cmd_result), the
uncaught ValueError of randint on an empty range, the uncaught IndexError
of indexing a too-short split result. -/
inductive RunErr where
  | exit (code : Int)
  | valueError
  | indexError
deriving DecidableEq, Repr

/-- The tail of get_random_slot after the pipeline: full_slots_lst is the
findall list; randint(0, len - 1) on an empty list raises ValueError,
otherwise an arbitrary in-range index — the draw reduced into range —
selects the match, and the two re.sub calls extract slot and volume, the
volume rstripped. -/
def pickSlot (lst : List (List Char)) (pick : Nat) :
    Except RunErr (List Char × List Char) :=
  if lst = [] then .error .valueError
  else
    .ok (subSlot (lst.getD (pick % lst.length) []),
      rstrip (subVol (lst.getD (pick % lst.length) [])))

/-- get_random_slot of the source: run the status pipeline (its non-zero
exit status is fatal via chk_cmd_result), then pick from the findall list
over the kept text. -/
def get_random_slot (text : List Char) (pick : Nat) :
    Except RunErr (List Char × List Char) :=
  if pipeRC text ≠ 0 then .error (.exit (pipeRC text))
  else pickSlot (pyFindallSE (unlines (keptLines text))) pick

def dtSpaceLit : List Char := "Data Transfer Element ".data
def dtLit : List Char := "Data Transfer Element".data
def elemLit : List Char := "Element ".data
def spLoadedLit : List Char := " Loaded".data

/-- The literal part of the re.search pattern of loaded():
"Data Transfer Element " + str(index) + ":Full". -/
def dteFullLit (i : Nat) : List Char := dtSpaceLit ++ ((Nat.repr i).data ++ fullLit)

/-- re.search of a literal followed by greedy dot-star: the first position
where the literal occurs, capturing from it to the end of that line. -/
def searchCapture (lit : List Char) : List Char → Option (List Char)
  | [] => if lit.isPrefixOf [] then some lit else none
  | c :: rest =>
    if lit.isPrefixOf (c :: rest) then
      some (lit ++ takeToNl ((c :: rest).drop lit.length))
    else searchCapture lit rest

/-- Match "= (backslash-w+)" at a position: the equals sign, a space, then
a non-empty greedy run of word characters.  Returns consumed length and
the captured word. -/
def eqWordAt : List Char → Option (Nat × List Char)
  | x :: y :: r =>
    if x = '=' ∧ y = ' ' then
      if r.takeWhile isWordChar = [] then none
      else some (2 + (r.takeWhile isWordChar).length, r.takeWhile isWordChar)
    else none
  | _ => none

/-- Greedy ".*= (backslash-w+)": the dot-star takes the rightmost position
before the line end where the rest matches.  Returns the offset of the
match, its consumed length and the captured word. -/
def lastEqWord : List Char → Option (Nat × Nat × List Char)
  | [] => none
  | c :: r =>
    if c = '\n' then none
    else
      match lastEqWord r with
      | some (off, n, g) => some (off + 1, n, g)
      | none => (eqWordAt (c :: r)).map (fun p => (0, p.1, p.2))

/-- Match "Element (backslash-d+) Loaded.*= (backslash-w+)" at a position:
the literal, a non-empty greedy digit run, " Loaded", then the greedy
dot-star handled by lastEqWord.  Returns consumed length and both
captures. -/
def tailElemMatch (s : List Char) : Option (Nat × List Char × List Char) :=
  if elemLit.isPrefixOf s then
    let s1 := s.drop 8
    let g1 := s1.takeWhile Char.isDigit
    if g1 = [] then none
    else if spLoadedLit.isPrefixOf (s1.drop g1.length) then
      (lastEqWord ((s1.drop g1.length).drop 7)).map
        (fun p => (8 + g1.length + 7 + p.1 + p.2.1, g1, p.2.2))
    else none
  else none

/-- Greedy ".*Element (backslash-d+) Loaded...": the leading dot-star takes
the rightmost position before the line end where the rest matches. -/
def lastTailMatch : List Char → Option (Nat × Nat × List Char × List Char)
  | [] => none
  | c :: r =>
    if c = '\n' then none
    else
      match lastTailMatch r with
      | some (off, n, g1, g2) => some (off + 1, n, g1, g2)
      | none => (tailElemMatch (c :: r)).map (fun p => (0, p.1, p.2.1, p.2.2))

/-- The anchored sub pattern of loaded():
"^Data Transfer Element.*Element (backslash-d+) Loaded.*= (backslash-w+)".
Returns total consumed length and the two captures, or none when the
pattern does not match at the start. -/
def dteSubMatch (s : List Char) : Option (Nat × List Char × List Char) :=
  if dtLit.isPrefixOf s then
    (lastTailMatch (s.drop 21)).map
      (fun p => (21 + p.1 + p.2.1, p.2.2.1, p.2.2.2))
  else none

/-- re.sub of the anchored pattern with replacement "backreference 1,
space, backreference 2": the match is replaced, the unmatched tail is
kept, a failed match leaves the string unchanged. -/
def dteSub (line : List Char) : List Char :=
  match dteSubMatch line with
  | some (n, g1, g2) => g1 ++ ' ' :: (g2 ++ line.drop n)
  | none => line

/-- loaded() of the source on a given status text: search the drive line
"Data Transfer Element i:Full...", and if found extract slot and volume by
the re.sub and split()[0]/[1] — indexing a shorter split raises
IndexError; with no match the function returns the sentinels "0", "0". -/
def loaded (text : List Char) (i : Nat) : Except RunErr (List Char × List Char) :=
  match searchCapture (dteFullLit i) text with
  | some line =>
    match pySplit (dteSub line) with
    | s :: v :: _ => .ok (s, v)
    | _ => .error .indexError
  | none => .ok ("0".data, "0".data)

/-- At-position test for re.search(ready, text, re.DOTALL): characters of
the marker match literally except the dot, which matches any character
(the only regex metacharacter occurring in the platform marker set). -/
def readyHere : List Char → List Char → Bool
  | [], _ => true
  | _ :: _, [] => false
  | p :: ps, c :: cs => (p = '.' || p = c) && readyHere ps cs

/-- The drive probe: does the ready marker match anywhere in the mt status
output? -/
def isReady (marker text : List Char) : Bool := anyPos (readyHere marker) text

/-- One entry of drive_byid_st_sg_lst: by-id node, st node, sg node. -/
abbrev Cand := String × String × String

/-- The external world of the discovery loop: for each shell command the
loop runs, the text and return code it would produce, keyed by the
library, the drive index of the iteration and, for mt status probes, the
probed by-id node.  The randint draw of each iteration is an arbitrary
oracle value. -/
structure Env where
  changerStatus : String → List Char
  changerStatusRC : String → Int
  slotStatus : String → Nat → List Char
  pick : String → Nat → Nat
  loadRC : String → Nat → Int
  driveStatusRC : String → Nat → String → Int
  driveStatus : String → Nat → String → List Char
  unloadRC : String → Nat → Int

/-- The inner probe loop (source lines 643-668): walk the candidate pool
in order; a failing mt status command is fatal via chk_cmd_result; the
first candidate whose status matches the ready marker is returned; a
candidate probing empty is skipped. -/
def probeFind (env : Env) (ready : List Char) (lib : String) (i : Nat) :
    List Cand → Except RunErr (Option Cand)
  | [] => .ok none
  | c :: rest =>
    if env.driveStatusRC lib i c.1 ≠ 0 then .error (.exit (env.driveStatusRC lib i c.1))
    else if isReady ready (env.driveStatus lib i c.1) then .ok (some c)
    else probeFind env ready lib i rest

/-- One iteration of the while loop over drive_index (source lines
625-668): pick a random occupied slot (its pipeline failure or empty
findall is fatal), load it into the drive (non-zero exit is fatal via
chk_cmd_result), sleep, then probe the pool; on a match the candidate is
recorded for this index and removed from the pool (list.remove drops the
first equal element) and the drive is unloaded (non-zero exit fatal).
Returns the recorded entry, if any, and the new pool. -/
def oneIter (env : Env) (ready : List Char) (lib : String) (i : Nat)
    (pool : List Cand) : Except RunErr (Option (Nat × Cand) × List Cand) := do
  let _ ← get_random_slot (env.slotStatus lib i) (env.pick lib i)
  if env.loadRC lib i ≠ 0 then throw (.exit (env.loadRC lib i))
  else
    match ← probeFind env ready lib i pool with
    | some c =>
      if env.unloadRC lib i ≠ 0 then throw (.exit (env.unloadRC lib i))
      else pure (some (i, c), pool.erase c)
    | none => pure (none, pool)

/-- Fuelled form of the while loop over drive_index; the loop runs while
i is below nd, so the remaining-iteration count nd - i is the fuel. -/
def libIterAux (env : Env) (ready : List Char) (lib : String) (nd : Nat) :
    Nat → Nat → List Cand → List (Nat × Cand) →
    Except RunErr (List (Nat × Cand) × List Cand)
  | 0, _, pool, maps => .ok (maps, pool)
  | fuel + 1, i, pool, maps =>
    if i < nd then
      match oneIter env ready lib i pool with
      | .error e => .error e
      | .ok (o, pool2) => libIterAux env ready lib nd fuel (i + 1) pool2 (maps ++ o.toList)
    else .ok (maps, pool)

/-- The while loop over drive_index for one library: drive_index runs from
i up to the drive count nd, one iteration each, accumulating this
library's (index, candidate) entries in order. -/
def libIter (env : Env) (ready : List Char) (lib : String) (nd i : Nat)
    (pool : List Cand) (maps : List (Nat × Cand)) :
    Except RunErr (List (Nat × Cand) × List Cand) :=
  libIterAux env ready lib nd (nd - i) i pool maps

/-- The one-step unfolding of the while loop: strictly below the drive
count one iteration runs and the loop continues at the next index,
otherwise the loop stops. -/
theorem libIter_eq (env : Env) (ready : List Char) (lib : String) (nd i : Nat)
    (pool : List Cand) (maps : List (Nat × Cand)) :
    libIter env ready lib nd i pool maps =
      if i < nd then
        match oneIter env ready lib i pool with
        | .error e => .error e
        | .ok (o, pool2) => libIter env ready lib nd (i + 1) pool2 (maps ++ o.toList)
      else .ok (maps, pool) := by
  by_cases hi : i < nd
  · have hrem : nd - i = (nd - (i + 1)) + 1 := by omega
    rw [libIter, hrem]
    simp only [libIterAux, hi, ite_true]
    rfl
  · have hrem : nd - i = 0 := by omega
    rw [libIter, hrem]
    simp [libIterAux, hi]

/-- lib_dict[lib].append(entry) with creation of the key on first use,
keys kept in insertion order. -/
def dictAppend : List (String × List (Nat × Cand)) → String → Nat × Cand →
    List (String × List (Nat × Cand))
  | [], lib, e => [(lib, [e])]
  | (k, v) :: rest, lib, e =>
    if k = lib then (k, v ++ [e]) :: rest else (k, v) :: dictAppend rest lib e

/-- The outer loop over the libraries found (source lines 614-670): per
library an mtx status whose failure is fatal, num_drives counted from the
status text, the skip-list check, then the drive_index loop; its entries
are appended to lib_dict as they were during the iteration. -/
def runLibs (env : Env) (ready : List Char) (skip : List String) :
    List String → List Cand → List (String × List (Nat × Cand)) →
    Except RunErr (List (String × List (Nat × Cand)) × List Cand)
  | [], pool, dict => .ok (dict, pool)
  | lib :: rest, pool, dict =>
    if env.changerStatusRC lib ≠ 0 then .error (.exit (env.changerStatusRC lib))
    else if lib ∈ skip then runLibs env ready skip rest pool dict
    else
      match libIter env ready lib (countLit dtLit (env.changerStatus lib)) 0 pool [] with
      | .error e => .error e
      | .ok (maps, pool2) =>
        runLibs env ready skip rest pool2
          (maps.foldl (fun d e => dictAppend d lib e) dict)

/-- All candidates recorded in lib_dict, in order. -/
def mappedCands (d : List (String × List (Nat × Cand))) : List Cand :=
  (d.map (fun p => p.2.map (fun e => e.2))).flatten

/-- Abstract form of one transfer-element record of an mtx status text:
the drive bay is empty, or holds the tape from the given storage slot with
the given volume tag. -/
inductive DriveState where
  | empty
  | full (slot vol : List Char)

/-- One transfer-element line as mtx prints it, for a given element-number
string. -/
def renderDrive : List Char × DriveState → List Char
  | (num, .empty) => dtSpaceLit ++ (num ++ ":Empty".data)
  | (num, .full s v) =>
      dtSpaceLit ++ (num ++ (":Full (Storage Element ".data ++
        (s ++ (" Loaded):VolumeTag = ".data ++ v))))

/-- A changer-status text assembled from transfer-element records. -/
def renderStatus (es : List (List Char × DriveState)) : List Char :=
  unlines (es.map renderDrive)

/-- Every character a digit. -/
def allDigit (s : List Char) : Prop := ∀ c ∈ s, c.isDigit

/-- Every character a word character. -/
def allWord (s : List Char) : Prop := ∀ c ∈ s, isWordChar c = true

/-- Well-formedness of a rendered transfer-element record: element numbers
and slot numbers are digit strings, volume tags are non-empty barcode
(word-character) strings. -/
def wfEntry : List Char × DriveState → Prop
  | (num, .empty) => allDigit num
  | (num, .full s v) => allDigit num ∧ allDigit s ∧ s ≠ [] ∧ allWord v ∧ v ≠ []

/-! Lemmas about the discovery loop. -/

theorem get_random_slot_noFull {text : List Char} (pick : Nat)
    (h : keptLines text = []) :
    get_random_slot text pick = .error (.exit 1) := by
  simp [get_random_slot, pipeRC, h]

theorem probeFind_mem {env : Env} {ready : List Char} {lib : String} {i : Nat} :
    ∀ {pool : List Cand} {c : Cand},
      probeFind env ready lib i pool = .ok (some c) → c ∈ pool := by
  intro pool
  induction pool with
  | nil => intro c h; simp [probeFind] at h
  | cons d rest ih =>
    intro c h
    simp only [probeFind] at h
    split at h
    · exact absurd h (by simp)
    · split at h
      · simp only [Except.ok.injEq, Option.some.injEq] at h
        subst h
        exact List.mem_cons_self d rest
      · exact List.mem_cons_of_mem d (ih h)

theorem probeFind_found {env : Env} {ready : List Char} {lib : String} {i : Nat}
    {pre post : List Cand} {c : Cand}
    (hpre : ∀ d ∈ pre, env.driveStatusRC lib i d.1 = 0 ∧
      isReady ready (env.driveStatus lib i d.1) = false)
    (hrc : env.driveStatusRC lib i c.1 = 0)
    (hrdy : isReady ready (env.driveStatus lib i c.1) = true) :
    probeFind env ready lib i (pre ++ c :: post) = .ok (some c) := by
  induction pre with
  | nil => simp [probeFind, hrc, hrdy]
  | cons d rest ih =>
    obtain ⟨h1, h2⟩ := hpre d (List.mem_cons_self d rest)
    simp only [List.cons_append, probeFind, h1, h2]
    simp only [ne_eq, not_true_eq_false, ite_false, Bool.false_eq_true, not_false_eq_true,
      ite_true]
    exact ih (fun d hd => hpre d (List.mem_cons_of_mem _ hd))

theorem probeFind_none {env : Env} {ready : List Char} {lib : String} {i : Nat} :
    ∀ {pool : List Cand},
      (∀ d ∈ pool, env.driveStatusRC lib i d.1 = 0 ∧
        isReady ready (env.driveStatus lib i d.1) = false) →
      probeFind env ready lib i pool = .ok none := by
  intro pool
  induction pool with
  | nil => intro _; simp [probeFind]
  | cons d rest ih =>
    intro hall
    obtain ⟨h1, h2⟩ := hall d (List.mem_cons_self d rest)
    simp only [probeFind, h1, h2]
    simp only [ne_eq, not_true_eq_false, ite_false, Bool.false_eq_true, not_false_eq_true,
      ite_true]
    exact ih (fun d hd => hall d (List.mem_cons_of_mem _ hd))

theorem perm_cons_erase_beq {α : Type} [BEq α] [LawfulBEq α] :
    ∀ {pool : List α} {c : α}, c ∈ pool → pool.Perm (c :: pool.erase c) := by
  intro pool
  induction pool with
  | nil => intro c h; simp at h
  | cons d rest ih =>
    intro c h
    rw [List.erase_cons]
    split
    · rename_i hdc
      have : d = c := eq_of_beq hdc
      subst this
      exact List.Perm.refl _
    · rename_i hdc
      have hne : c ≠ d := by
        intro he
        subst he
        simp at hdc
      have hcr : c ∈ rest := by
        rcases List.mem_cons.mp h with h1 | h1
        · exact absurd h1 hne
        · exact h1
      calc d :: rest ~ d :: c :: rest.erase c := (ih hcr).cons d
        _ ~ c :: d :: rest.erase c := List.Perm.swap c d _

theorem oneIter_ok_inv {env : Env} {ready : List Char} {lib : String} {i : Nat}
    {pool pool2 : List Cand} {o : Option (Nat × Cand)}
    (h : oneIter env ready lib i pool = .ok (o, pool2)) :
    (o = none ∧ pool2 = pool) ∨
      ∃ c, o = some (i, c) ∧ c ∈ pool ∧ pool2 = pool.erase c := by
  unfold oneIter at h
  rcases hg : get_random_slot (env.slotStatus lib i) (env.pick lib i) with e | sv
  · rw [hg] at h
    simp [Bind.bind, Except.bind] at h
  · rw [hg] at h
    simp only [Bind.bind, Except.bind] at h
    split at h
    · simp [throw, throwThe, MonadExceptOf.throw] at h
    · rcases hp : probeFind env ready lib i pool with e | oc
      · rw [hp] at h
        simp at h
      · rw [hp] at h
        simp only at h
        cases oc with
        | none =>
          simp only [pure, Except.pure, Except.ok.injEq, Prod.mk.injEq] at h
          exact Or.inl ⟨h.1.symm, h.2.symm⟩
        | some c =>
          simp only at h
          split at h
          · simp [throw, throwThe, MonadExceptOf.throw] at h
          · simp only [pure, Except.pure, Except.ok.injEq, Prod.mk.injEq] at h
            exact Or.inr ⟨c, h.1.symm, probeFind_mem hp, h.2.symm⟩

theorem oneIter_match {env : Env} {ready : List Char} {lib : String} {i : Nat}
    {pool : List Cand} {c : Cand} {sv : List Char × List Char}
    (h1 : get_random_slot (env.slotStatus lib i) (env.pick lib i) = .ok sv)
    (h2 : env.loadRC lib i = 0)
    (h3 : probeFind env ready lib i pool = .ok (some c))
    (h4 : env.unloadRC lib i = 0) :
    oneIter env ready lib i pool = .ok (some (i, c), pool.erase c) := by
  unfold oneIter
  rw [h1]
  simp only [Bind.bind, Except.bind, h2]
  rw [h3]
  simp [h4, pure, Except.pure]

theorem oneIter_nomatch {env : Env} {ready : List Char} {lib : String} {i : Nat}
    {pool : List Cand} {sv : List Char × List Char}
    (h1 : get_random_slot (env.slotStatus lib i) (env.pick lib i) = .ok sv)
    (h2 : env.loadRC lib i = 0)
    (h3 : probeFind env ready lib i pool = .ok none) :
    oneIter env ready lib i pool = .ok (none, pool) := by
  unfold oneIter
  rw [h1]
  simp only [Bind.bind, Except.bind, h2]
  rw [h3]
  simp [pure, Except.pure]

theorem oneIter_loadFail {env : Env} {ready : List Char} {lib : String} {i : Nat}
    {pool : List Cand} {sv : List Char × List Char} {r : Int}
    (h1 : get_random_slot (env.slotStatus lib i) (env.pick lib i) = .ok sv)
    (h2 : env.loadRC lib i = r) (h3 : r ≠ 0) :
    oneIter env ready lib i pool = .error (.exit r) := by
  unfold oneIter
  rw [h1]
  simp only [Bind.bind, Except.bind, h2]
  simp [h3, throw, throwThe, MonadExceptOf.throw]

theorem oneIter_slotFail {env : Env} {ready : List Char} {lib : String} {i : Nat}
    {pool : List Cand} {e : RunErr}
    (h1 : get_random_slot (env.slotStatus lib i) (env.pick lib i) = .error e) :
    oneIter env ready lib i pool = .error e := by
  unfold oneIter
  rw [h1]
  simp [Bind.bind, Except.bind]

theorem libIter_step {env : Env} {ready : List Char} {lib : String} {nd i : Nat}
    {pool pool2 : List Cand} {maps : List (Nat × Cand)} {o : Option (Nat × Cand)}
    (hi : i < nd) (h : oneIter env ready lib i pool = .ok (o, pool2)) :
    libIter env ready lib nd i pool maps =
      libIter env ready lib nd (i + 1) pool2 (maps ++ o.toList) := by
  rw [libIter_eq]
  simp [hi, h]

theorem libIter_stepErr {env : Env} {ready : List Char} {lib : String} {nd i : Nat}
    {pool : List Cand} {maps : List (Nat × Cand)} {e : RunErr}
    (hi : i < nd) (h : oneIter env ready lib i pool = .error e) :
    libIter env ready lib nd i pool maps = .error e := by
  rw [libIter_eq]
  simp [hi, h]

theorem libIter_spec {env : Env} {ready : List Char} {lib : String} {nd : Nat} :
    ∀ {i : Nat} {pool pool2 : List Cand} {maps maps2 : List (Nat × Cand)},
      libIter env ready lib nd i pool maps = .ok (maps2, pool2) →
      ∃ δ, maps2 = maps ++ δ ∧
        (pool2 ++ δ.map (fun e => e.2)).Perm pool ∧
        List.Sublist (δ.map (fun e => e.1)) (List.range' i (nd - i)) := by
  suffices main : ∀ k i, nd - i = k →
      ∀ {pool pool2 : List Cand} {maps maps2 : List (Nat × Cand)},
        libIter env ready lib nd i pool maps = .ok (maps2, pool2) →
        ∃ δ, maps2 = maps ++ δ ∧
          (pool2 ++ δ.map (fun e => e.2)).Perm pool ∧
          List.Sublist (δ.map (fun e => e.1)) (List.range' i (nd - i)) by
    intro i pool pool2 maps maps2 h
    exact main (nd - i) i rfl h
  intro k
  induction k using Nat.strong_induction_on with
  | _ k ih =>
    intro i hki pool pool2 maps maps2 h
    rw [libIter_eq] at h
    split at h
    · rename_i hi
      rcases ho : oneIter env ready lib i pool with e | op
      · rw [ho] at h
        simp at h
      · rw [ho] at h
        obtain ⟨o, pool1⟩ := op
        simp only at h
        have hk : nd - (i + 1) < k := by omega
        obtain ⟨δ, hmaps, hperm, hsub⟩ := ih (nd - (i + 1)) hk (i + 1) rfl h
        rcases oneIter_ok_inv ho with ⟨hon, hpe⟩ | ⟨c, hoc, hcm, hpe⟩
        · subst hon hpe
          refine ⟨δ, by simpa using hmaps, hperm, ?_⟩
          have : List.range' i (nd - i) = i :: List.range' (i + 1) (nd - (i + 1)) := by
            have h1 : nd - i = (nd - (i + 1)) + 1 := by omega
            rw [h1, List.range'_succ]
          rw [this]
          exact hsub.cons i
        · subst hoc hpe
          refine ⟨(i, c) :: δ, by simpa using hmaps, ?_, ?_⟩
          · simp only [List.map_cons]
            calc pool2 ++ c :: δ.map (fun e => e.2)
                ~ c :: (pool2 ++ δ.map (fun e => e.2)) := List.perm_middle
              _ ~ c :: pool.erase c := hperm.cons c
              _ ~ pool := (perm_cons_erase_beq hcm).symm
          · have : List.range' i (nd - i) = i :: List.range' (i + 1) (nd - (i + 1)) := by
              have h1 : nd - i = (nd - (i + 1)) + 1 := by omega
              rw [h1, List.range'_succ]
            rw [this]
            simpa using hsub.cons₂ i
    · simp only [Except.ok.injEq, Prod.mk.injEq] at h
      refine ⟨[], by simp [h.1.symm], by simp [h.2.symm], ?_⟩
      simp

theorem perm_app_single {α : Type} (a b : List α) (x : α) :
    (a ++ [x] ++ b).Perm ((a ++ b) ++ [x]) := by
  calc a ++ [x] ++ b = a ++ ([x] ++ b) := by rw [List.append_assoc]
    _ ~ a ++ (b ++ [x]) := List.Perm.append_left a List.perm_append_comm
    _ = (a ++ b) ++ [x] := by rw [List.append_assoc]

theorem dictAppend_mapped (d : List (String × List (Nat × Cand))) (lib : String)
    (e : Nat × Cand) :
    (mappedCands (dictAppend d lib e)).Perm (mappedCands d ++ [e.2]) := by
  induction d with
  | nil => simp [dictAppend, mappedCands]
  | cons p rest ih =>
    obtain ⟨k, v⟩ := p
    simp only [dictAppend]
    split
    · simp only [mappedCands, List.map_cons, List.flatten_cons, List.map_append]
      exact perm_app_single _ _ _
    · simp only [mappedCands, List.map_cons, List.flatten_cons]
      have hih := ih
      simp only [mappedCands] at hih
      calc (v.map fun e => e.2) ++
            ((dictAppend rest lib e).map (fun p => p.2.map fun e => e.2)).flatten
          ~ (v.map fun e => e.2) ++
              ((rest.map (fun p => p.2.map fun e => e.2)).flatten ++ [e.2]) :=
            List.Perm.append_left _ hih
        _ = ((v.map fun e => e.2) ++
              (rest.map (fun p => p.2.map fun e => e.2)).flatten) ++ [e.2] := by
            rw [List.append_assoc]

theorem foldl_dictAppend_mapped (maps : List (Nat × Cand)) (lib : String) :
    ∀ d, (mappedCands (maps.foldl (fun d e => dictAppend d lib e) d)).Perm
      (mappedCands d ++ maps.map (fun e => e.2)) := by
  induction maps with
  | nil => intro d; simp
  | cons e rest ih =>
    intro d
    simp only [List.foldl_cons, List.map_cons]
    calc mappedCands (rest.foldl (fun d e => dictAppend d lib e) (dictAppend d lib e))
        ~ mappedCands (dictAppend d lib e) ++ rest.map (fun e => e.2) := ih _
      _ ~ (mappedCands d ++ [e.2]) ++ rest.map (fun e => e.2) :=
          (dictAppend_mapped d lib e).append_right _
      _ = mappedCands d ++ ([e.2] ++ rest.map (fun e => e.2)) := by
          rw [List.append_assoc]
      _ = mappedCands d ++ e.2 :: rest.map (fun e => e.2) := by
          rw [List.singleton_append]

theorem runLibs_spec {env : Env} {ready : List Char} {skip : List String} :
    ∀ {libs : List String} {pool res : List Cand}
      {dict dict2 : List (String × List (Nat × Cand))},
      runLibs env ready skip libs pool dict = .ok (dict2, res) →
      (mappedCands dict2 ++ res).Perm (mappedCands dict ++ pool) := by
  intro libs
  induction libs with
  | nil =>
    intro pool res dict dict2 h
    simp only [runLibs, Except.ok.injEq, Prod.mk.injEq] at h
    rw [h.1, h.2]
  | cons lib rest ih =>
    intro pool res dict dict2 h
    simp only [runLibs] at h
    split at h
    · exact absurd h (by simp)
    · split at h
      · exact ih h
      · rcases hl : libIter env ready lib (countLit dtLit (env.changerStatus lib))
            0 pool [] with e | mp
        · rw [hl] at h
          simp at h
        · rw [hl] at h
          obtain ⟨maps, pool2⟩ := mp
          simp only at h
          obtain ⟨δ, hmaps, hperm, _⟩ := libIter_spec hl
          simp only [List.nil_append] at hmaps
          subst hmaps
          calc mappedCands dict2 ++ res
              ~ mappedCands (maps.foldl (fun d e => dictAppend d lib e) dict) ++ pool2 :=
                ih h
            _ ~ (mappedCands dict ++ maps.map (fun e => e.2)) ++ pool2 :=
                (foldl_dictAppend_mapped maps lib dict).append_right _
            _ = mappedCands dict ++ (maps.map (fun e => e.2) ++ pool2) := by
                rw [List.append_assoc]
            _ ~ mappedCands dict ++ (pool2 ++ maps.map (fun e => e.2)) :=
                List.Perm.append_left _ List.perm_append_comm
            _ ~ mappedCands dict ++ pool := List.Perm.append_left _ hperm

theorem erase_append_of_not_mem {α : Type} [BEq α] [LawfulBEq α] {c : α} :
    ∀ {pre : List α} (post : List α), c ∉ pre →
      (pre ++ c :: post).erase c = pre ++ post := by
  intro pre
  induction pre with
  | nil =>
    intro post _
    simp [List.erase_cons_head]
  | cons d rest ih =>
    intro post h
    have hne : d ≠ c := by
      intro he
      exact h (he ▸ List.mem_cons_self d rest)
    rw [List.cons_append, List.erase_cons]
    split
    · rename_i hdc
      exact absurd (eq_of_beq hdc) hne
    · have hcr : c ∉ rest := fun hm => h (List.mem_cons_of_mem d hm)
      rw [ih post hcr, List.cons_append]

/-! Lemmas about the storage-element findall pattern and the slot and
volume extraction, used for the random-slot claims. -/

theorem dotStarSpaceLen_take {s : List Char} {k : Nat}
    (h : dotStarSpaceLen s = some k) : ∀ c ∈ s.take k, c ≠ '\n' := by
  induction s generalizing k with
  | nil => simp [dotStarSpaceLen] at h
  | cons c rest ih =>
    simp only [dotStarSpaceLen] at h
    split at h
    · exact absurd h (by simp)
    · rename_i hc
      split at h
      · rename_i m hm
        simp only [Option.some.injEq] at h
        subst h
        intro x hx
        rw [List.take_succ_cons] at hx
        rcases List.mem_cons.mp hx with hx | hx
        · subst hx; exact hc
        · exact ih hm x hx
      · split at h
        · rename_i hsp
          simp only [Option.some.injEq] at h
          subst h
          intro x hx
          simp only [List.take_succ_cons, List.take_zero] at hx
          rcases List.mem_cons.mp hx with hx | hx
          · subst hx; exact hc
          · simp at hx
        · exact absurd h (by simp)

theorem take_app_cons₂ (a : List Char) (d c : Char) (b w : List Char) (k : Nat) :
    (a ++ d :: c :: (b ++ w)).take (a.length + b.length + k + 2) =
      a ++ d :: c :: (b ++ w.take k) := by
  rw [show a.length + b.length + k + 2 = a.length + (b.length + k + 2) by omega,
    List.take_append]
  congr 1
  rw [show b.length + k + 2 = (b.length + k + 1) + 1 by omega, List.take_succ_cons]
  congr 1
  rw [show b.length + k + 1 = (b.length + k) + 1 by rfl, List.take_succ_cons]
  congr 1
  exact List.take_append k

theorem take_app_cons₁ (a : List Char) (d : Char) (b w : List Char) (k : Nat) :
    (a ++ d :: (b ++ w)).take (a.length + b.length + k + 1) =
      a ++ d :: (b ++ w.take k) := by
  rw [show a.length + b.length + k + 1 = a.length + (b.length + k + 1) by omega,
    List.take_append]
  congr 1
  rw [show b.length + k + 1 = (b.length + k) + 1 by rfl, List.take_succ_cons]
  congr 1
  exact List.take_append k

/-- The shape of a findall match: the literal, one digit and at most one
further non-newline character, ":Full", then a newline-free tail. -/
theorem seMatchLen_decomp {s : List Char} {n : Nat} (h : seMatchLen s = some n) :
    ∃ t, (∀ x ∈ t, x ≠ '\n') ∧
      ((∃ d, d.isDigit = true ∧ s.take n = seLit ++ d :: (fullLit ++ t)) ∨
       (∃ d c, d.isDigit = true ∧ c ≠ '\n' ∧
         s.take n = seLit ++ d :: c :: (fullLit ++ t))) := by
  unfold seMatchLen at h
  split at h
  · rename_i hpre
    have hs : s = seLit ++ s.drop 16 := by
      have h16 : (16 : Nat) = seLit.length := rfl
      rw [h16]
      exact eq_append_drop_of_pfx (isPrefixOf_iff.mp hpre)
    split at h
    · exact absurd h (by simp)
    · rename_i d s2 hds
      split at h
      · rename_i hd
        split at h
        · -- the optional character was consumed
          rename_i m hm
          simp only [Option.some.injEq] at h
          subst h
          cases s2 with
          | nil => simp [seOptCharLen] at hm
          | cons c s3 =>
            simp only [seOptCharLen] at hm
            split at hm
            · exact absurd hm (by simp)
            · rename_i hc
              rcases Option.map_eq_some'.mp hm with ⟨m1, hm1, hmm⟩
              unfold afterFullLen at hm1
              split at hm1
              · rename_i hfull
                rcases Option.map_eq_some'.mp hm1 with ⟨k, hk, hk5⟩
                have hs3 : s3 = fullLit ++ s3.drop 5 := by
                  have h5 : (5 : Nat) = fullLit.length := rfl
                  rw [h5]
                  exact eq_append_drop_of_pfx (isPrefixOf_iff.mp hfull)
                refine ⟨(s3.drop 5).take k, dotStarSpaceLen_take hk,
                  Or.inr ⟨d, c, hd, hc, ?_⟩⟩
                have hseq : s = seLit ++ d :: c :: (fullLit ++ s3.drop 5) := by
                  rw [hs, hds, ← hs3]
                rw [hseq,
                  show m = seLit.length + fullLit.length + k + 2 by
                    have e16 : seLit.length = 16 := rfl
                    have e5 : fullLit.length = 5 := rfl
                    omega,
                  take_app_cons₂]
              · exact absurd hm1 (by simp)
        · -- the optional character was dropped on backtracking
          rename_i hnoc
          rcases Option.map_eq_some'.mp h with ⟨m1, hm1, hmm⟩
          unfold afterFullLen at hm1
          split at hm1
          · rename_i hfull
            rcases Option.map_eq_some'.mp hm1 with ⟨k, hk, hk5⟩
            have hs2 : s2 = fullLit ++ s2.drop 5 := by
              have h5 : (5 : Nat) = fullLit.length := rfl
              rw [h5]
              exact eq_append_drop_of_pfx (isPrefixOf_iff.mp hfull)
            refine ⟨(s2.drop 5).take k, dotStarSpaceLen_take hk,
              Or.inl ⟨d, hd, ?_⟩⟩
            have hseq : s = seLit ++ d :: (fullLit ++ s2.drop 5) := by
              rw [hs, hds, ← hs2]
            rw [hseq,
              show n = seLit.length + fullLit.length + k + 1 by
                have e16 : seLit.length = 16 := rfl
                have e5 : fullLit.length = 5 := rfl
                omega,
              take_app_cons₁]
          · exact absurd hm1 (by simp)
      · exact absurd h (by simp)
  · exact absurd h (by simp)

theorem subSlotAux_nil : ∀ fuel, subSlotAux fuel [] = []
  | 0 => rfl
  | _ + 1 => rfl

/-- The newline-free tail of a line is kept whole by the greedy line
dot-star. -/
theorem takeToNl_eq_self {t : List Char} (ht : ∀ x ∈ t, x ≠ '\n') :
    takeToNl t = t := by
  unfold takeToNl
  rw [List.takeWhile_eq_self_iff]
  intro a ha
  simp only [decide_eq_true_eq]
  exact ht a ha

/-- If the sub pattern matches the whole string at position zero, the sub
result is exactly the captured group. -/
theorem subSlotAux_consume {fuel : Nat} {s g : List Char} {n : Nat}
    (h : seSubMatch s = some (n, g)) (hn : s.length ≤ n) (hs : s ≠ []) :
    subSlotAux (fuel + 1) s = g := by
  cases s with
  | nil => exact absurd rfl hs
  | cons c rest =>
    simp only [subSlotAux, h]
    rw [List.drop_eq_nil_of_le (by simpa using hn), subSlotAux_nil]
    simp

theorem subSlot_consume {s g : List Char} {n : Nat}
    (h : seSubMatch s = some (n, g)) (hn : s.length ≤ n) (hs : s ≠ []) :
    subSlot s = g := by
  unfold subSlot
  obtain ⟨c, rest, hcr⟩ : ∃ c rest, s = c :: rest := by
    cases s with
    | nil => exact absurd rfl hs
    | cons c rest => exact ⟨c, rest, rfl⟩
  subst hcr
  rw [List.length_cons]
  exact subSlotAux_consume h hn hs

theorem isPrefixOf_cons_ne {a b : Char} {l m : List Char} (h : a ≠ b) :
    (a :: l).isPrefixOf (b :: m) = false := by
  rw [Bool.eq_false_iff]
  intro hc
  have hp := isPrefixOf_iff.mp hc
  rw [List.cons_prefix_cons] at hp
  exact h hp.1

theorem seLit_app_ne_nil {x : List Char} : seLit ++ x ≠ [] := by
  rw [show seLit = 'S' :: "torage Element ".data from rfl]
  simp

theorem seLit_app_cons_len (d : Char) (x : List Char) :
    (seLit ++ d :: (fullLit ++ x)).length = 22 + x.length := by
  have e16 : seLit.length = 16 := rfl
  have e5 : fullLit.length = 5 := rfl
  simp only [List.length_append, List.length_cons]
  omega

theorem seLit_app_cons₂_len (d c : Char) (x : List Char) :
    (seLit ++ d :: c :: (fullLit ++ x)).length = 23 + x.length := by
  have e16 : seLit.length = 16 := rfl
  have e5 : fullLit.length = 5 := rfl
  simp only [List.length_append, List.length_cons]
  omega

/-- The optional-character attempt fails on the one-digit shape: the
character it would consume is the colon of ":Full", after which ":Full"
cannot match again at "Full...". -/
theorem seSubWith_colon {t : List Char} : seSubWith (fullLit ++ t) = none := by
  rw [show fullLit ++ t = ':' :: ("Full".data ++ t) from rfl]
  simp only [seSubWith]
  rw [if_neg (show (':' : Char) ≠ '\n' by decide)]
  rw [show "Full".data ++ t = 'F' :: ("ull".data ++ t) from rfl,
    show fullLit = ':' :: "Full".data from rfl,
    isPrefixOf_cons_ne (show (':' : Char) ≠ 'F' by decide)]
  simp

/-- The sub match on the one-digit match shape. -/
theorem seSubMatch_one {d : Char} (hd : d.isDigit = true) {t : List Char}
    (ht : ∀ x ∈ t, x ≠ '\n') :
    seSubMatch (seLit ++ d :: (fullLit ++ t)) = some (22 + t.length, [d]) := by
  have hpre : seLit.isPrefixOf (seLit ++ d :: (fullLit ++ t)) = true :=
    isPrefixOf_iff.mpr ⟨_, rfl⟩
  have hdrop : (seLit ++ d :: (fullLit ++ t)).drop 16 = d :: (fullLit ++ t) := by
    rw [show (16 : Nat) = seLit.length from rfl, List.drop_left]
  have hfull : fullLit.isPrefixOf (fullLit ++ t) = true := isPrefixOf_iff.mpr ⟨_, rfl⟩
  have hdrop5 : (fullLit ++ t).drop 5 = t := by
    rw [show (5 : Nat) = fullLit.length from rfl, List.drop_left]
  unfold seSubMatch
  rw [if_pos hpre, hdrop]
  simp only [hd, if_true, seSubWith_colon, hfull, hdrop5, takeToNl_eq_self ht]

/-- The sub match on the two-character match shape. -/
theorem seSubMatch_two {d c : Char} (hd : d.isDigit = true) (hc : c ≠ '\n')
    {t : List Char} (ht : ∀ x ∈ t, x ≠ '\n') :
    seSubMatch (seLit ++ d :: c :: (fullLit ++ t)) =
      some (23 + t.length, [d, c]) := by
  have hpre : seLit.isPrefixOf (seLit ++ d :: c :: (fullLit ++ t)) = true :=
    isPrefixOf_iff.mpr ⟨_, rfl⟩
  have hdrop : (seLit ++ d :: c :: (fullLit ++ t)).drop 16 = d :: c :: (fullLit ++ t) := by
    rw [show (16 : Nat) = seLit.length from rfl, List.drop_left]
  have h2 : seSubWith (c :: (fullLit ++ t)) = some (23 + t.length, [c]) := by
    simp only [seSubWith]
    rw [if_neg hc,
      if_pos (show fullLit.isPrefixOf (fullLit ++ t) = true from
        isPrefixOf_iff.mpr ⟨_, rfl⟩),
      show (fullLit ++ t).drop 5 = t from by
        rw [show (5 : Nat) = fullLit.length from rfl, List.drop_left],
      takeToNl_eq_self ht]
  unfold seSubMatch
  rw [if_pos hpre, hdrop]
  simp only [hd, if_true, h2]

/-- The slot sub on a one-digit whole match: the result is the digit. -/
theorem subSlot_one {d : Char} (hd : d.isDigit = true) {t : List Char}
    (ht : ∀ x ∈ t, x ≠ '\n') :
    subSlot (seLit ++ d :: (fullLit ++ t)) = [d] := by
  refine subSlot_consume (seSubMatch_one hd ht) ?_ seLit_app_ne_nil
  rw [seLit_app_cons_len]

/-- The slot sub on a two-character whole match: the result is the digit
and the optional character. -/
theorem subSlot_two {d c : Char} (hd : d.isDigit = true) (hc : c ≠ '\n')
    {t : List Char} (ht : ∀ x ∈ t, x ≠ '\n') :
    subSlot (seLit ++ d :: c :: (fullLit ++ t)) = [d, c] := by
  refine subSlot_consume (seSubMatch_two hd hc ht) ?_ seLit_app_ne_nil
  rw [seLit_app_cons₂_len]

/-- Every member of the findall scan is the match of the pattern at the
start of some suffix of the text. -/
theorem pyFindallAux_mem :
    ∀ {fuel : Nat} {s m : List Char}, m ∈ pyFindallAux fuel s →
      ∃ u n, u <:+ s ∧ seMatchLen u = some n ∧ m = u.take n := by
  intro fuel
  induction fuel with
  | zero =>
    intro s m h
    simp [pyFindallAux] at h
  | succ fuel ih =>
    intro s m h
    cases s with
    | nil => simp [pyFindallAux] at h
    | cons c rest =>
      rcases hm : seMatchLen (c :: rest) with _ | n
      · simp only [pyFindallAux, hm] at h
        obtain ⟨u, n, hsuf, hml, hm2⟩ := ih h
        exact ⟨u, n, hsuf.trans (List.suffix_cons c rest), hml, hm2⟩
      · simp only [pyFindallAux, hm] at h
        rcases List.mem_cons.mp h with h1 | h1
        · exact ⟨c :: rest, n, List.suffix_refl _, hm, h1⟩
        · obtain ⟨u, n2, hsuf, hml, hm2⟩ := ih h1
          exact ⟨u, n2, hsuf.trans (List.drop_suffix n (c :: rest)), hml, hm2⟩

theorem pyFindallSE_mem {s m : List Char} (h : m ∈ pyFindallSE s) :
    ∃ u n, u <:+ s ∧ seMatchLen u = some n ∧ m = u.take n :=
  pyFindallAux_mem h

theorem pickSlot_ok_inv {lst : List (List Char)} {pick : Nat} {s v : List Char}
    (h : pickSlot lst pick = .ok (s, v)) :
    ∃ m ∈ lst, s = subSlot m ∧ v = rstrip (subVol m) := by
  unfold pickSlot at h
  split at h
  · exact absurd h (by simp)
  · rename_i hne
    simp only [Except.ok.injEq, Prod.mk.injEq] at h
    have hlen : 0 < lst.length := List.length_pos.mpr hne
    have hlt : pick % lst.length < lst.length := Nat.mod_lt _ hlen
    refine ⟨lst.getD (pick % lst.length) [], ?_, h.1.symm, h.2.symm⟩
    rw [List.getD_eq_getElem lst [] hlt]
    exact List.getElem_mem hlt

theorem get_random_slot_ok_inv {text : List Char} {pick : Nat} {s v : List Char}
    (h : get_random_slot text pick = .ok (s, v)) :
    ∃ m ∈ pyFindallSE (unlines (keptLines text)),
      s = subSlot m ∧ v = rstrip (subVol m) := by
  unfold get_random_slot at h
  split at h
  · exact absurd h (by simp)
  · exact pickSlot_ok_inv h

/-- The slot string a successful random pick returns is the captured group
of the findall match: one digit, optionally followed by one more
character. -/
theorem get_random_slot_slot_shape {text : List Char} {pick : Nat}
    {s v : List Char} (h : get_random_slot text pick = .ok (s, v)) :
    1 ≤ s.length ∧ s.length ≤ 2 := by
  obtain ⟨m, hmem, hs, _⟩ := get_random_slot_ok_inv h
  obtain ⟨u, n, _, hml, hm2⟩ := pyFindallSE_mem hmem
  obtain ⟨t, ht, hshape | hshape⟩ := seMatchLen_decomp hml
  · obtain ⟨d, hd, htake⟩ := hshape
    rw [hs, hm2, htake, subSlot_one hd ht]
    simp
  · obtain ⟨d, c, hd, hc, htake⟩ := hshape
    rw [hs, hm2, htake, subSlot_two hd hc ht]
    simp

/-! Lemmas tracing a findall match back to the grep-kept line it lies in,
used to show cleaning tapes are never selected. -/

theorem occursB_infix_iff {lit s : List Char} :
    occursB lit s = true ↔ lit <:+: s := by
  rw [List.infix_iff_prefix_suffix]
  induction s with
  | nil =>
    simp only [occursB, List.isEmpty_iff]
    constructor
    · intro h
      exact ⟨[], by simp [h]⟩
    · rintro ⟨t, h1, h2⟩
      have := List.suffix_nil.mp h2
      subst this
      exact List.prefix_nil.mp h1
  | cons c rest ih =>
    simp only [occursB, Bool.or_eq_true]
    constructor
    · rintro (h | h)
      · exact ⟨c :: rest, isPrefixOf_iff.mp h, List.suffix_refl _⟩
      · obtain ⟨t, h1, h2⟩ := ih.mp h
        exact ⟨t, h1, h2.trans (List.suffix_cons c rest)⟩
    · rintro ⟨t, h1, h2⟩
      rcases List.suffix_cons_iff.mp h2 with h3 | h3
      · subst h3
        exact Or.inl (isPrefixOf_iff.mpr h1)
      · exact Or.inr (ih.mpr ⟨t, h1, h3⟩)

theorem pfx_append_nl {m : List Char} (hm : ∀ x ∈ m, x ≠ '\n') :
    ∀ {a b : List Char}, m <+: (a ++ '\n' :: b) → m <+: a := by
  induction m with
  | nil => intro a b _; exact List.nil_prefix
  | cons x m2 ih =>
    intro a b h
    cases a with
    | nil =>
      rw [List.nil_append, List.cons_prefix_cons] at h
      exact absurd h.1 (hm x (List.mem_cons_self x m2))
    | cons y a2 =>
      rw [List.cons_append, List.cons_prefix_cons] at h
      obtain ⟨hxy, h2⟩ := h
      subst hxy
      exact List.cons_prefix_cons.mpr
        ⟨rfl, ih (fun z hz => hm z (List.mem_cons_of_mem _ hz)) h2⟩

theorem infix_append_cons_nl {m : List Char} (hm : ∀ x ∈ m, x ≠ '\n')
    (hne : m ≠ []) :
    ∀ {l U : List Char}, m <:+: (l ++ '\n' :: U) → m <:+: l ∨ m <:+: U := by
  intro l
  induction l with
  | nil =>
    intro U h
    rw [List.nil_append] at h
    rcases List.infix_cons_iff.mp h with h1 | h1
    · cases m with
      | nil => exact absurd rfl hne
      | cons x m2 =>
        rw [List.cons_prefix_cons] at h1
        exact absurd h1.1 (hm x (List.mem_cons_self x m2))
    · exact Or.inr h1
  | cons y l2 ih =>
    intro U h
    rw [List.cons_append] at h
    rcases List.infix_cons_iff.mp h with h1 | h1
    · exact Or.inl (pfx_append_nl hm h1).isInfix
    · rcases ih h1 with h2 | h2
      · exact Or.inl (List.infix_cons h2)
      · exact Or.inr h2

theorem infix_unlines_mem {m : List Char} (hm : ∀ x ∈ m, x ≠ '\n')
    (hne : m ≠ []) :
    ∀ {ls : List (List Char)}, m <:+: unlines ls → ∃ l ∈ ls, m <:+: l := by
  intro ls
  induction ls with
  | nil =>
    intro h
    simp only [unlines, List.foldr_nil] at h
    rcases h with ⟨s, t, hst⟩
    rcases List.append_eq_nil.mp hst with ⟨h1, _⟩
    exact absurd (List.append_eq_nil.mp h1).2 hne
  | cons l ls2 ih =>
    intro h
    have hu : unlines (l :: ls2) = l ++ '\n' :: unlines ls2 := rfl
    rw [hu] at h
    rcases infix_append_cons_nl hm hne h with h1 | h1
    · exact ⟨l, List.mem_cons_self l ls2, h1⟩
    · obtain ⟨l2, hl2, hml⟩ := ih h1
      exact ⟨l2, List.mem_cons_of_mem l hl2, hml⟩

theorem digit_ne_nl {c : Char} (h : c.isDigit = true) : c ≠ '\n' := by
  intro he
  subst he
  exact absurd h (by decide)

/-- Every findall match is a newline-free, non-empty infix of the text it
was scanned from. -/
theorem pyFindallSE_mem_props {X m : List Char} (h : m ∈ pyFindallSE X) :
    m <:+: X ∧ (∀ x ∈ m, x ≠ '\n') ∧ m ≠ [] := by
  obtain ⟨u, n, hsuf, hml, hm2⟩ := pyFindallSE_mem h
  obtain ⟨t, ht, hshape⟩ := seMatchLen_decomp hml
  have hpfx : m <+: u := by
    rw [hm2]
    exact take_pfx n u
  refine ⟨hpfx.isInfix.trans hsuf.isInfix, ?_, ?_⟩
  · have hse : ∀ x ∈ seLit, x ≠ '\n' := by decide
    have hfu : ∀ x ∈ fullLit, x ≠ '\n' := by decide
    rcases hshape with ⟨d, hd, htake⟩ | ⟨d, c, hd, hc, htake⟩
    · rw [hm2, htake]
      intro x hx
      rcases List.mem_append.mp hx with hx | hx
      · exact hse x hx
      · rcases List.mem_cons.mp hx with hx | hx
        · subst hx; exact digit_ne_nl hd
        · rcases List.mem_append.mp hx with hx | hx
          · exact hfu x hx
          · exact ht x hx
    · rw [hm2, htake]
      intro x hx
      rcases List.mem_append.mp hx with hx | hx
      · exact hse x hx
      · rcases List.mem_cons.mp hx with hx | hx
        · subst hx; exact digit_ne_nl hd
        · rcases List.mem_cons.mp hx with hx | hx
          · subst hx; exact hc
          · rcases List.mem_append.mp hx with hx | hx
            · exact hfu x hx
            · exact ht x hx
  · rcases hshape with ⟨d, _, htake⟩ | ⟨d, c, _, _, htake⟩ <;>
      rw [hm2, htake] <;> exact seLit_app_ne_nil

theorem keptLines_no_cln {text l : List Char} (h : l ∈ keptLines text) :
    occursB clnLit l = false := by
  unfold keptLines at h
  have h2 := (List.mem_filter.mp h).2
  rw [Bool.and_eq_true] at h2
  simpa using h2.2

theorem splitNlAux_nl_free {s : List Char} (h : ∀ x ∈ s, x ≠ '\n') :
    ∀ acc, splitNlAux s acc = [acc.reverse ++ s] := by
  induction s with
  | nil => intro acc; simp [splitNlAux]
  | cons c rest ih =>
    intro acc
    simp only [splitNlAux]
    rw [if_neg (h c (List.mem_cons_self c rest))]
    rw [ih (fun x hx => h x (List.mem_cons_of_mem c hx)) (c :: acc)]
    simp

theorem splitNl_nl_free {s : List Char} (h : ∀ x ∈ s, x ≠ '\n') :
    splitNl s = [s] := by
  unfold splitNl
  rw [splitNlAux_nl_free h []]
  simp

theorem afterLastTag_sfx :
    ∀ {s r : List Char}, afterLastTag s = some r → r <:+ s := by
  intro s
  induction s with
  | nil => intro r h; simp [afterLastTag] at h
  | cons c rest ih =>
    intro r h
    simp only [afterLastTag] at h
    split at h
    · rename_i r2 hr2
      simp only [Option.some.injEq] at h
      subst h
      exact (ih hr2).trans (List.suffix_cons c rest)
    · split at h
      · simp only [Option.some.injEq] at h
        subst h
        exact List.drop_suffix 11 (c :: rest)
      · exact absurd h (by simp)

theorem rstrip_pfx (s : List Char) : rstrip s <+: s := by
  unfold rstrip
  obtain ⟨w, hw⟩ := List.dropWhile_suffix (l := s.reverse) isPySpace
  refine ⟨w.reverse, ?_⟩
  have := congrArg List.reverse hw
  rw [List.reverse_append, List.reverse_reverse] at this
  exact this

/-- The volume extraction yields an infix of its newline-free input. -/
theorem subVol_rstrip_infix {m : List Char} (hnl : ∀ x ∈ m, x ≠ '\n') :
    rstrip (subVol m) <:+: m := by
  unfold subVol
  rw [splitNl_nl_free hnl]
  simp only [List.map_cons, List.map_nil]
  show rstrip (subVolLine m) <:+: m
  unfold subVolLine
  rcases ha : afterLastTag m with _ | r
  · exact (rstrip_pfx m).isInfix
  · exact (rstrip_pfx r).isInfix.trans (afterLastTag_sfx ha).isInfix

/-! Lemmas about the line search of loaded(): the re.search scan over a
status text built from one line per transfer element. -/

theorem searchCapture_at_zero {lit X : List Char} (h : lit <+: X) (hne : X ≠ []) :
    searchCapture lit X = some (lit ++ takeToNl (X.drop lit.length)) := by
  cases X with
  | nil => exact absurd rfl hne
  | cons c rest =>
    simp only [searchCapture]
    rw [if_pos (isPrefixOf_iff.mpr h)]

theorem searchCapture_nil {lit : List Char} (h : lit ≠ []) :
    searchCapture lit [] = none := by
  have hc : ¬ (lit.isPrefixOf ([] : List Char) = true) := fun hb =>
    h (List.prefix_nil.mp (isPrefixOf_iff.mp hb))
  simp only [searchCapture]
  rw [if_neg hc]

theorem searchCapture_none {lit : List Char} :
    ∀ {X : List Char}, occursB lit X = false → searchCapture lit X = none := by
  intro X
  induction X with
  | nil =>
    intro h
    simp only [occursB] at h
    refine searchCapture_nil fun he => ?_
    subst he
    simp at h
  | cons c rest ih =>
    intro h
    simp only [occursB, Bool.or_eq_false_iff] at h
    simp only [searchCapture]
    rw [if_neg (by simp [h.1])]
    exact ih h.2

theorem takeToNl_append_nl {a : List Char} (ha : ∀ x ∈ a, x ≠ '\n')
    (b : List Char) : takeToNl (a ++ '\n' :: b) = a := by
  induction a with
  | nil =>
    simp [takeToNl, List.takeWhile_cons]
  | cons c a2 ih =>
    simp only [List.cons_append, takeToNl, List.takeWhile_cons]
    rw [if_pos (by simpa using ha c (List.mem_cons_self c a2))]
    have := ih (fun x hx => ha x (List.mem_cons_of_mem c hx))
    simp only [takeToNl] at this
    rw [this]

theorem searchCapture_append_nl {lit : List Char} (hlitne : lit ≠ [])
    (hlit : ∀ x ∈ lit, x ≠ '\n') :
    ∀ {l : List Char}, (∀ x ∈ l, x ≠ '\n') → ∀ rest : List Char,
      searchCapture lit (l ++ '\n' :: rest) =
        match searchCapture lit l with
        | some cap => some cap
        | none => searchCapture lit rest := by
  intro l
  induction l with
  | nil =>
    intro _ rest
    rw [searchCapture_nil hlitne]
    simp only [List.nil_append]
    obtain ⟨x, l2, hl⟩ : ∃ x l2, lit = x :: l2 := by
      cases lit with
      | nil => exact absurd rfl hlitne
      | cons x l2 => exact ⟨x, l2, rfl⟩
    have hx : x ≠ '\n' := hlit x (by rw [hl]; exact List.mem_cons_self x l2)
    have hnp : lit.isPrefixOf ('\n' :: rest) = false := by
      rw [hl]
      exact isPrefixOf_cons_ne hx
    simp only [searchCapture]
    rw [if_neg (by simp [hnp])]
  | cons c l2 ih =>
    intro hl rest
    have hl2 : ∀ x ∈ l2, x ≠ '\n' := fun x hx => hl x (List.mem_cons_of_mem c hx)
    by_cases hp : lit <+: (c :: l2)
    · have hp2 : lit <+: (c :: l2) ++ '\n' :: rest := hp.trans ⟨'\n' :: rest, rfl⟩
      rw [searchCapture_at_zero hp2 (by simp), searchCapture_at_zero hp (by simp)]
      have hlen : lit.length ≤ (c :: l2).length := hp.length_le
      rw [List.drop_append_of_le_length hlen]
      rw [takeToNl_append_nl (fun x hx => hl x (List.mem_of_mem_drop hx)) rest]
      have heq : takeToNl ((c :: l2).drop lit.length) = (c :: l2).drop lit.length :=
        takeToNl_eq_self (fun x hx => hl x (List.mem_of_mem_drop hx))
      rw [heq]
    · have hnp : lit.isPrefixOf (c :: l2) = false := by
        rw [Bool.eq_false_iff]
        intro hb
        exact hp (isPrefixOf_iff.mp hb)
      have hnp2 : lit.isPrefixOf (c :: (l2 ++ '\n' :: rest)) = false := by
        rw [Bool.eq_false_iff]
        intro hb
        have h2 : lit <+: (c :: l2) := by
          have h3 := isPrefixOf_iff.mp hb
          rw [show c :: (l2 ++ '\n' :: rest) = (c :: l2) ++ '\n' :: rest from rfl] at h3
          exact pfx_append_nl hlit h3
        exact hp h2
      rw [List.cons_append]
      simp only [searchCapture]
      rw [if_neg (by simp [hnp2]), if_neg (by simp [hnp])]
      exact ih hl2 rest

theorem searchCapture_unlines {lit : List Char} (hlitne : lit ≠ [])
    (hlit : ∀ x ∈ lit, x ≠ '\n') :
    ∀ {ls : List (List Char)}, (∀ l ∈ ls, ∀ x ∈ l, x ≠ '\n') →
      searchCapture lit (unlines ls) =
        ls.foldr (fun l acc =>
          match searchCapture lit l with
          | some cap => some cap
          | none => acc) none := by
  intro ls
  induction ls with
  | nil =>
    intro _
    simp only [unlines, List.foldr_nil]
    exact searchCapture_nil hlitne
  | cons l ls2 ih =>
    intro hall
    have h1 : unlines (l :: ls2) = l ++ '\n' :: unlines ls2 := rfl
    rw [h1, List.foldr_cons,
      searchCapture_append_nl hlitne hlit (hall l (List.mem_cons_self l ls2)) (unlines ls2),
      ih (fun x hx => hall x (List.mem_cons_of_mem l hx))]

/-! Per-line occurrence analysis: the search literal
"Data Transfer Element i:Full" can only hit the rendered line of drive i
when that drive is Full, never elsewhere in a well-formed status text. -/

theorem digit_ne {c x : Char} (hc : c.isDigit = true) (hx : x.isDigit = false) :
    c ≠ x := by
  intro he
  subst he
  rw [hc] at hx
  exact absurd hx (by decide)

/-- Two digit runs each followed by a colon are prefix-compatible only
when equal. -/
theorem digit_colon_pfx :
    ∀ {a b x y : List Char}, allDigit a → allDigit b →
      (a ++ ':' :: x) <+: (b ++ ':' :: y) → a = b ∧ x <+: y := by
  intro a
  induction a with
  | nil =>
    intro b x y _ hb h
    cases b with
    | nil =>
      simp only [List.nil_append] at h
      rw [List.cons_prefix_cons] at h
      exact ⟨rfl, h.2⟩
    | cons db b2 =>
      simp only [List.nil_append, List.cons_append] at h
      rw [List.cons_prefix_cons] at h
      have : (':' : Char).isDigit = true := h.1 ▸ hb db (List.mem_cons_self db b2)
      exact absurd this (by decide)
  | cons da a2 ih =>
    intro b x y ha hb h
    cases b with
    | nil =>
      simp only [List.nil_append, List.cons_append] at h
      rw [List.cons_prefix_cons] at h
      have : (':' : Char).isDigit = true := h.1 ▸ ha da (List.mem_cons_self da a2)
      exact absurd this (by decide)
    | cons db b2 =>
      simp only [List.cons_append] at h
      rw [List.cons_prefix_cons] at h
      obtain ⟨hdd, h2⟩ := h
      subst hdd
      obtain ⟨hab, hxy⟩ := ih (fun z hz => ha z (List.mem_cons_of_mem da hz))
        (fun z hz => hb z (List.mem_cons_of_mem da hz)) h2
      exact ⟨by rw [hab], hxy⟩

/-- Occurrences of a literal starting with a given character skip over a
region free of that character. -/
theorem occursB_skip {x : Char} {lit2 : List Char} :
    ∀ {A : List Char}, (∀ a ∈ A, a ≠ x) → ∀ w : List Char,
      occursB (x :: lit2) (A ++ w) = occursB (x :: lit2) w := by
  intro A
  induction A with
  | nil => intro _ w; rw [List.nil_append]
  | cons a A2 ih =>
    intro hA w
    rw [List.cons_append]
    simp only [occursB]
    rw [isPrefixOf_cons_ne (fun he => hA a (List.mem_cons_self a A2) he.symm)]
    rw [ih (fun z hz => hA z (List.mem_cons_of_mem a hz)) w]
    simp

/-- A literal with a blank at some position is no prefix of an all-word
string. -/
theorem not_pfx_word {lit : List Char} {j : Nat} (hj : lit.get? j = some ' ')
    {w : List Char} (hw : ∀ x ∈ w, isWordChar x = true) :
    lit.isPrefixOf w = false := by
  rw [Bool.eq_false_iff]
  intro hb
  obtain ⟨t, ht⟩ := isPrefixOf_iff.mp hb
  have hjlen : j < lit.length := by
    rw [List.get?_eq_some] at hj
    exact hj.1
  have hwj : w.get? j = some ' ' := by
    rw [← ht, List.get?_append hjlen]
    exact hj
  have hmem : (' ' : Char) ∈ w := List.get?_mem hwj
  have := hw ' ' hmem
  exact absurd this (by decide)

/-- A literal with a blank at some position never occurs in an all-word
string standing at the end of the text. -/
theorem occursB_word_false {lit : List Char} {j : Nat}
    (hj : lit.get? j = some ' ') :
    ∀ {w : List Char}, (∀ x ∈ w, isWordChar x = true) →
      occursB lit w = false := by
  intro w
  induction w with
  | nil =>
    intro _
    simp only [occursB]
    have hne : lit ≠ [] := by
      intro he
      rw [he] at hj
      simp at hj
    rw [Bool.eq_false_iff]
    intro hb
    exact hne (List.isEmpty_iff.mp hb)
  | cons c w2 ih =>
    intro hw
    simp only [occursB]
    rw [not_pfx_word hj hw, ih (fun z hz => hw z (List.mem_cons_of_mem c hz))]
    simp

/-- Is the record a Full one? -/
def isFullE : List Char × DriveState → Bool
  | (_, .empty) => false
  | (_, .full _ _) => true

theorem no_D_occurs {lit2 : List Char} {j : Nat}
    (hj : ('D' :: lit2).get? j = some ' ') {A v : List Char}
    (hA : ∀ a ∈ A, a ≠ 'D') (hv : allWord v) :
    occursB ('D' :: lit2) (A ++ v) = false := by
  rw [occursB_skip hA v]
  exact occursB_word_false hj hv

/-- One unfolding step of the occurrence scan. -/
theorem occursB_cons (lit : List Char) (c : Char) (rest : List Char) :
    occursB lit (c :: rest) = (lit.isPrefixOf (c :: rest) || occursB lit rest) := by
  simp only [occursB]

/-- The search literal of drive index i does not occur in the rendered
line of a well-formed record unless that record is the Full record with
element number i. -/
theorem line_no_hit {numI : List Char} (hnumI : allDigit numI)
    {e : List Char × DriveState} (hwf : wfEntry e)
    (hnot : ¬(e.1 = numI ∧ isFullE e = true)) :
    occursB (dtSpaceLit ++ (numI ++ fullLit)) (renderDrive e) = false := by
  obtain ⟨num, st⟩ := e
  have hlit : dtSpaceLit ++ (numI ++ fullLit) =
      'D' :: ("ata Transfer Element ".data ++ (numI ++ fullLit)) := rfl
  have hj : (dtSpaceLit ++ (numI ++ fullLit)).get? 4 = some ' ' := by
    rw [List.get?_append (by decide : 4 < dtSpaceLit.length)]
    decide
  have hata : ∀ x ∈ ("ata Transfer Element ".data : List Char), x ≠ 'D' := by decide
  cases st with
  | empty =>
    have hnum : allDigit num := hwf
    have hline : renderDrive (num, .empty) =
        'D' :: ("ata Transfer Element ".data ++ (num ++ ":Empty".data)) := rfl
    rw [hline, occursB_cons, Bool.or_eq_false_iff]
    constructor
    · rw [Bool.eq_false_iff]
      intro hb
      have hp := isPrefixOf_iff.mp hb
      rw [show ('D' :: ("ata Transfer Element ".data ++ (num ++ ":Empty".data)) :
          List Char) = dtSpaceLit ++ (num ++ ":Empty".data) from rfl] at hp
      rw [List.prefix_append_right_inj] at hp
      rw [show (fullLit : List Char) = ':' :: "Full".data from rfl,
        show (":Empty".data : List Char) = ':' :: "Empty".data from rfl] at hp
      obtain ⟨_, hFE⟩ := digit_colon_pfx hnumI hnum hp
      rw [show ("Full".data : List Char) = 'F' :: "ull".data from rfl,
        show ("Empty".data : List Char) = 'E' :: "mpty".data from rfl,
        List.cons_prefix_cons] at hFE
      exact absurd hFE.1 (by decide)
    · rw [hlit]
      have hApp : "ata Transfer Element ".data ++ (num ++ ":Empty".data) =
          ("ata Transfer Element ".data ++ (num ++ ":Empty".data)) ++ [] := by
        rw [List.append_nil]
      rw [hApp]
      refine no_D_occurs (by rw [← hlit]; exact hj) ?_ (fun x hx => by simp at hx)
      intro a ha
      rcases List.mem_append.mp ha with ha | ha
      · exact hata a ha
      · rcases List.mem_append.mp ha with ha | ha
        · exact digit_ne (hnum a ha) (by decide)
        · have hemp : ∀ x ∈ ((":Empty".data) : List Char), x ≠ 'D' := by decide
          exact hemp a ha
  | full s2 v2 =>
    obtain ⟨hnum, hs, _, hv, _⟩ := hwf
    have hne : num ≠ numI := by
      intro he
      exact hnot ⟨he, rfl⟩
    have hline : renderDrive (num, .full s2 v2) =
        'D' :: ("ata Transfer Element ".data ++
          (num ++ (":Full (Storage Element ".data ++
            (s2 ++ (" Loaded):VolumeTag = ".data ++ v2))))) := rfl
    rw [hline, occursB_cons, Bool.or_eq_false_iff]
    constructor
    · rw [Bool.eq_false_iff]
      intro hb
      have hp := isPrefixOf_iff.mp hb
      rw [show ('D' :: ("ata Transfer Element ".data ++
          (num ++ (":Full (Storage Element ".data ++
            (s2 ++ (" Loaded):VolumeTag = ".data ++ v2))))) : List Char) =
          dtSpaceLit ++ (num ++ (":Full (Storage Element ".data ++
            (s2 ++ (" Loaded):VolumeTag = ".data ++ v2)))) from rfl] at hp
      rw [List.prefix_append_right_inj] at hp
      have hcolon : ((":Full (Storage Element ".data ++
          (s2 ++ (" Loaded):VolumeTag = ".data ++ v2))) : List Char) =
          ':' :: ("Full (Storage Element ".data ++
            (s2 ++ (" Loaded):VolumeTag = ".data ++ v2))) := rfl
      rw [show (fullLit : List Char) = ':' :: "Full".data from rfl, hcolon] at hp
      obtain ⟨hEq, _⟩ := digit_colon_pfx hnumI hnum hp
      exact hne hEq.symm
    · rw [hlit]
      have hApp : "ata Transfer Element ".data ++
          (num ++ (":Full (Storage Element ".data ++
            (s2 ++ (" Loaded):VolumeTag = ".data ++ v2)))) =
          ("ata Transfer Element ".data ++
            (num ++ (":Full (Storage Element ".data ++
              (s2 ++ " Loaded):VolumeTag = ".data)))) ++ v2 := by
        simp [List.append_assoc]
      rw [hApp]
      refine no_D_occurs (by rw [← hlit]; exact hj) ?_ hv
      intro a ha
      rcases List.mem_append.mp ha with ha | ha
      · exact hata a ha
      · rcases List.mem_append.mp ha with ha | ha
        · exact digit_ne (hnum a ha) (by decide)
        · rcases List.mem_append.mp ha with ha | ha
          · have hst : ∀ x ∈ ((":Full (Storage Element ".data) : List Char),
                x ≠ 'D' := by decide
            exact hst a ha
          · rcases List.mem_append.mp ha with ha | ha
            · exact digit_ne (hs a ha) (by decide)
            · have hld : ∀ x ∈ ((" Loaded):VolumeTag = ".data) : List Char),
                  x ≠ 'D' := by decide
              exact hld a ha

/-! Character-class helpers for the line parsed by loaded(). -/

theorem word_ne {c x : Char} (hc : isWordChar c = true)
    (hx : isWordChar x = false) : c ≠ x := by
  intro he
  subst he
  rw [hc] at hx
  exact absurd hx (by decide)

theorem digit_not_nl {c : Char} (h : c.isDigit = true) : c ≠ '\n' :=
  digit_ne h (by decide)

theorem word_not_nl {c : Char} (h : isWordChar c = true) : c ≠ '\n' :=
  word_ne h (by decide)

theorem digit_not_space {c : Char} (h : c.isDigit = true) :
    isPySpace c = false := by
  have h1 : c ≠ ' ' := digit_ne h (by decide)
  have h2 : c ≠ '\t' := digit_ne h (by decide)
  have h3 : c ≠ '\n' := digit_ne h (by decide)
  have h4 : c ≠ '\r' := digit_ne h (by decide)
  simp [isPySpace, h1, h2, h3, h4]

theorem word_not_space {c : Char} (h : isWordChar c = true) :
    isPySpace c = false := by
  have h1 : c ≠ ' ' := word_ne h (by decide)
  have h2 : c ≠ '\t' := word_ne h (by decide)
  have h3 : c ≠ '\n' := word_ne h (by decide)
  have h4 : c ≠ '\r' := word_ne h (by decide)
  simp [isPySpace, h1, h2, h3, h4]

theorem digitChar_isDigit {m : Nat} (h : m < 10) :
    (Nat.digitChar m).isDigit = true := by
  interval_cases m <;> decide

theorem toDigitsCore_digits :
    ∀ fuel n (acc : List Char), (∀ c ∈ acc, c.isDigit = true) →
      ∀ c ∈ Nat.toDigitsCore 10 fuel n acc, c.isDigit = true := by
  intro fuel
  induction fuel with
  | zero =>
    intro n acc hacc c hc
    simp only [Nat.toDigitsCore] at hc
    exact hacc c hc
  | succ f ih =>
    intro n acc hacc c hc
    simp only [Nat.toDigitsCore] at hc
    have hd : (Nat.digitChar (n % 10)).isDigit = true :=
      digitChar_isDigit (Nat.mod_lt n (by decide))
    split at hc
    · rcases List.mem_cons.mp hc with h | h
      · rw [h]; exact hd
      · exact hacc c h
    · refine ih (n / 10) _ ?_ c hc
      intro z hz
      rcases List.mem_cons.mp hz with h | h
      · rw [h]; exact hd
      · exact hacc z h

/-- The decimal rendering of a drive index is a digit string. -/
theorem repr_allDigit (n : Nat) : allDigit (Nat.repr n).data := by
  intro c hc
  have h0 : (Nat.repr n).data = Nat.toDigitsCore 10 (n + 1) n [] := rfl
  rw [h0] at hc
  exact toDigitsCore_digits (n + 1) n [] (by simp) c hc

/-- A well-formed rendered record line is newline-free. -/
theorem renderDrive_nl_free {e : List Char × DriveState} (hwf : wfEntry e) :
    ∀ x ∈ renderDrive e, x ≠ '\n' := by
  obtain ⟨num, st⟩ := e
  cases st with
  | empty =>
    have hnum : allDigit num := hwf
    intro x hx
    simp only [renderDrive] at hx
    rcases List.mem_append.mp hx with h | h
    · have hcon : ∀ z ∈ (dtSpaceLit : List Char), z ≠ '\n' := by decide
      exact hcon x h
    · rcases List.mem_append.mp h with h | h
      · exact digit_not_nl (hnum x h)
      · have hcon : ∀ z ∈ ((":Empty".data) : List Char), z ≠ '\n' := by decide
        exact hcon x h
  | full s v =>
    obtain ⟨hnum, hs, _, hv, _⟩ := hwf
    intro x hx
    simp only [renderDrive] at hx
    rcases List.mem_append.mp hx with h | h
    · have hcon : ∀ z ∈ (dtSpaceLit : List Char), z ≠ '\n' := by decide
      exact hcon x h
    · rcases List.mem_append.mp h with h | h
      · exact digit_not_nl (hnum x h)
      · rcases List.mem_append.mp h with h | h
        · have hcon : ∀ z ∈ ((":Full (Storage Element ".data) : List Char),
              z ≠ '\n' := by decide
          exact hcon x h
        · rcases List.mem_append.mp h with h | h
          · exact digit_not_nl (hs x h)
          · rcases List.mem_append.mp h with h | h
            · have hcon : ∀ z ∈ ((" Loaded):VolumeTag = ".data) : List Char),
                  z ≠ '\n' := by decide
              exact hcon x h
            · exact word_not_nl (hv x h)

/-- A digit run stops the greedy digit scan exactly at the following
blank. -/
theorem takeWhile_digit_app {s : List Char} (hs : allDigit s) (t : List Char) :
    (s ++ ' ' :: t).takeWhile Char.isDigit = s := by
  induction s with
  | nil =>
    rw [List.nil_append, List.takeWhile_cons]
    rw [if_neg (by decide)]
  | cons c s2 ih =>
    rw [List.cons_append, List.takeWhile_cons]
    rw [if_pos (hs c (List.mem_cons_self c s2))]
    rw [ih (fun z hz => hs z (List.mem_cons_of_mem c hz))]

/-! str.split() on the substituted "slot volume" string. -/

theorem pySplitAux_token {t : List Char} (ht : ∀ c ∈ t, isPySpace c = false) :
    ∀ rest acc, pySplitAux (t ++ rest) acc = pySplitAux rest (t.reverse ++ acc) := by
  induction t with
  | nil => intro rest acc; simp
  | cons c t2 ih =>
    intro rest acc
    rw [List.cons_append]
    simp only [pySplitAux]
    rw [if_neg (by simp [ht c (List.mem_cons_self c t2)])]
    rw [ih (fun z hz => ht z (List.mem_cons_of_mem c hz)) rest (c :: acc)]
    rw [List.reverse_cons, List.append_assoc, List.singleton_append]

/-- split() of a token, one blank, a token. -/
theorem pySplit_two {s v : List Char} (hs : ∀ c ∈ s, isPySpace c = false)
    (hs0 : s ≠ []) (hv : ∀ c ∈ v, isPySpace c = false) (hv0 : v ≠ []) :
    pySplit (s ++ ' ' :: v) = [s, v] := by
  unfold pySplit
  rw [pySplitAux_token hs (' ' :: v) [], List.append_nil]
  simp only [pySplitAux]
  rw [if_pos (by decide)]
  rw [if_neg (by simp [hs0])]
  have hrest : pySplitAux v [] = [v] := by
    have h1 := pySplitAux_token hv [] []
    rw [List.append_nil, List.append_nil] at h1
    rw [h1]
    simp only [pySplitAux]
    rw [if_neg (by simp [hv0]), List.reverse_reverse]
  rw [hrest, List.reverse_reverse]

/-! The trailing "= (word)" group: the greedy inner dot-star settles on the
rightmost position of the line where the group matches. -/

theorem eqWordAt_ne {c : Char} (hc : c ≠ '=') :
    ∀ r : List Char, eqWordAt (c :: r) = none := by
  intro r
  cases r with
  | nil => rfl
  | cons y r2 =>
    simp only [eqWordAt]
    rw [if_neg (by simp [hc])]

theorem lastEqWord_word_none {v : List Char} (hv : allWord v) :
    lastEqWord v = none := by
  induction v with
  | nil => rfl
  | cons c r ih =>
    simp only [lastEqWord]
    rw [if_neg (word_not_nl (hv c (List.mem_cons_self c r)))]
    rw [ih (fun z hz => hv z (List.mem_cons_of_mem c hz))]
    rw [eqWordAt_ne (word_ne (hv c (List.mem_cons_self c r)) (by decide)) r]
    rfl

theorem lastEqWord_eqword {v : List Char} (hv : allWord v) (hv0 : v ≠ []) :
    lastEqWord ('=' :: ' ' :: v) = some (0, 2 + v.length, v) := by
  have hsp : lastEqWord (' ' :: v) = none := by
    simp only [lastEqWord]
    rw [if_neg (by decide)]
    rw [lastEqWord_word_none hv]
    rw [eqWordAt_ne (by decide) v]
    rfl
  rw [lastEqWord]
  rw [if_neg (by decide), hsp]
  have htw : v.takeWhile isWordChar = v := List.takeWhile_eq_self_iff.mpr hv
  simp only [eqWordAt]
  rw [if_pos (by decide), htw]
  rw [if_neg hv0]
  rfl

theorem lastEqWord_append_some {w : List Char} {off n : Nat} {g : List Char}
    (h : lastEqWord w = some (off, n, g)) :
    ∀ {A : List Char}, (∀ a ∈ A, a ≠ '\n') →
      lastEqWord (A ++ w) = some (off + A.length, n, g) := by
  intro A
  induction A with
  | nil => intro _; rw [List.nil_append, h]; rfl
  | cons a A2 ih =>
    intro hA
    rw [List.cons_append]
    simp only [lastEqWord]
    rw [if_neg (hA a (List.mem_cons_self a A2))]
    rw [ih (fun z hz => hA z (List.mem_cons_of_mem a hz))]
    rfl

/-! The "Element (digits) Loaded" group and the leading greedy dot-star of
the sub pattern of loaded(). -/

theorem tailElemMatch_ne_E {c : Char} (hc : c ≠ 'E') (r : List Char) :
    tailElemMatch (c :: r) = none := by
  unfold tailElemMatch
  rw [show (elemLit : List Char) = 'E' :: "lement ".data from rfl]
  rw [isPrefixOf_cons_ne (fun he => hc he.symm)]
  simp

theorem tailElemMatch_word_none {w : List Char} (hw : allWord w) :
    tailElemMatch w = none := by
  unfold tailElemMatch
  rw [not_pfx_word (show (elemLit : List Char).get? 7 = some ' ' from by decide) hw]
  simp

theorem tailElemMatch_at {s v : List Char} (hs : allDigit s) (hs0 : s ≠ [])
    (hv : allWord v) (hv0 : v ≠ []) :
    tailElemMatch (elemLit ++ (s ++ (" Loaded):VolumeTag = ".data ++ v))) =
      some (8 + s.length + 7 + 12 + (2 + v.length), s, v) := by
  have hdrop8 : ((elemLit ++ (s ++ (" Loaded):VolumeTag = ".data ++ v))) :
      List Char).drop 8 = s ++ (" Loaded):VolumeTag = ".data ++ v) := by
    rw [show (8 : Nat) = (elemLit : List Char).length from rfl, List.drop_left]
  have htw : ((s ++ (" Loaded):VolumeTag = ".data ++ v)) :
      List Char).takeWhile Char.isDigit = s := by
    rw [show ((" Loaded):VolumeTag = ".data ++ v) : List Char) =
      ' ' :: ("Loaded):VolumeTag = ".data ++ v) from rfl]
    exact takeWhile_digit_app hs _
  have hpre2 : (spLoadedLit : List Char).isPrefixOf
      ((" Loaded):VolumeTag = ".data ++ v)) = true := by
    rw [show ((" Loaded):VolumeTag = ".data ++ v) : List Char) =
      spLoadedLit ++ ("):VolumeTag = ".data ++ v) from rfl]
    exact isPrefixOf_iff.mpr ⟨_, rfl⟩
  have hdrop7 : (((" Loaded):VolumeTag = ".data ++ v) : List Char)).drop 7 =
      "):VolumeTag = ".data ++ v := by
    rw [show ((" Loaded):VolumeTag = ".data ++ v) : List Char) =
      spLoadedLit ++ ("):VolumeTag = ".data ++ v) from rfl]
    rw [show (7 : Nat) = (spLoadedLit : List Char).length from rfl, List.drop_left]
  have hlew : lastEqWord ("):VolumeTag = ".data ++ v) =
      some (12, 2 + v.length, v) := by
    rw [show (("):VolumeTag = ".data ++ v) : List Char) =
      "):VolumeTag ".data ++ ('=' :: ' ' :: v) from rfl]
    rw [lastEqWord_append_some (lastEqWord_eqword hv hv0) (by decide)]
    rfl
  simp only [tailElemMatch]
  rw [if_pos (isPrefixOf_iff.mpr ⟨_, rfl⟩)]
  rw [hdrop8, htw, if_neg hs0, List.drop_left, hdrop7, hlew]
  rfl

theorem lastTailMatch_word_none {v : List Char} (hv : allWord v) :
    lastTailMatch v = none := by
  induction v with
  | nil => rfl
  | cons c r ih =>
    rw [lastTailMatch]
    rw [if_neg (word_not_nl (hv c (List.mem_cons_self c r)))]
    rw [ih (fun z hz => hv z (List.mem_cons_of_mem c hz))]
    rw [tailElemMatch_word_none hv]
    rfl

theorem lastTailMatch_skip_noE {w : List Char} (hw : lastTailMatch w = none) :
    ∀ {A : List Char}, (∀ a ∈ A, a ≠ '\n' ∧ a ≠ 'E') →
      lastTailMatch (A ++ w) = none := by
  intro A
  induction A with
  | nil => intro _; rw [List.nil_append]; exact hw
  | cons a A2 ih =>
    intro hA
    rw [List.cons_append, lastTailMatch]
    rw [if_neg (hA a (List.mem_cons_self a A2)).1]
    rw [ih (fun z hz => hA z (List.mem_cons_of_mem a hz))]
    rw [tailElemMatch_ne_E (hA a (List.mem_cons_self a A2)).2 (A2 ++ w)]
    rfl

theorem lastTailMatch_append_some {w : List Char} {off n : Nat}
    {g1 g2 : List Char} (h : lastTailMatch w = some (off, n, g1, g2)) :
    ∀ {A : List Char}, (∀ a ∈ A, a ≠ '\n') →
      lastTailMatch (A ++ w) = some (off + A.length, n, g1, g2) := by
  intro A
  induction A with
  | nil => intro _; rw [List.nil_append, h]; rfl
  | cons a A2 ih =>
    intro hA
    rw [List.cons_append, lastTailMatch]
    rw [if_neg (hA a (List.mem_cons_self a A2))]
    rw [ih (fun z hz => hA z (List.mem_cons_of_mem a hz))]
    rfl

/-- The rightmost position of the rendered line tail where the element
group matches is the "Element " of "(Storage Element s Loaded)". -/
theorem lastTailMatch_at {s v : List Char} (hs : allDigit s) (hs0 : s ≠ [])
    (hv : allWord v) (hv0 : v ≠ []) :
    lastTailMatch
        ('E' :: ("lement ".data ++ (s ++ (" Loaded):VolumeTag = ".data ++ v)))) =
      some (0, 8 + s.length + 7 + 12 + (2 + v.length), s, v) := by
  have hnone : lastTailMatch
      ("lement ".data ++ (s ++ (" Loaded):VolumeTag = ".data ++ v))) = none := by
    have hform : (("lement ".data ++ (s ++ (" Loaded):VolumeTag = ".data ++ v))) :
        List Char) = ("lement ".data ++ (s ++ " Loaded):VolumeTag = ".data)) ++ v := by
      simp [List.append_assoc]
    rw [hform]
    refine lastTailMatch_skip_noE (lastTailMatch_word_none hv) ?_
    intro a ha
    rcases List.mem_append.mp ha with h | h
    · have hcon : ∀ z ∈ (("lement ".data) : List Char), z ≠ '\n' ∧ z ≠ 'E' := by
        decide
      exact hcon a h
    · rcases List.mem_append.mp h with h | h
      · exact ⟨digit_not_nl (hs a h), digit_ne (hs a h) (by decide)⟩
      · have hcon : ∀ z ∈ ((" Loaded):VolumeTag = ".data) : List Char),
            z ≠ '\n' ∧ z ≠ 'E' := by decide
        exact hcon a h
  rw [lastTailMatch]
  rw [if_neg (by decide), hnone]
  have hte : tailElemMatch
      ('E' :: ("lement ".data ++ (s ++ (" Loaded):VolumeTag = ".data ++ v)))) =
      some (8 + s.length + 7 + 12 + (2 + v.length), s, v) := by
    rw [show ('E' :: ("lement ".data ++ (s ++ (" Loaded):VolumeTag = ".data ++ v))) :
        List Char) = elemLit ++ (s ++ (" Loaded):VolumeTag = ".data ++ v)) from rfl]
    exact tailElemMatch_at hs hs0 hv hv0
  rw [hte]
  rfl

theorem dteSub_of_match {line : List Char} {n : Nat} {g1 g2 : List Char}
    (h : dteSubMatch line = some (n, g1, g2)) :
    dteSub line = g1 ++ ' ' :: (g2 ++ line.drop n) := by
  unfold dteSub
  rw [h]

/-- The re.sub of loaded() turns the rendered Full line of a drive into
"slot volume". -/
theorem dteSub_line {numI s v : List Char} (hnum : allDigit numI)
    (hs : allDigit s) (hs0 : s ≠ []) (hv : allWord v) (hv0 : v ≠ []) :
    dteSub (dtSpaceLit ++ (numI ++ (":Full (Storage Element ".data ++
        (s ++ (" Loaded):VolumeTag = ".data ++ v))))) = s ++ ' ' :: v := by
  have hform : ((dtSpaceLit ++ (numI ++ (":Full (Storage Element ".data ++
      (s ++ (" Loaded):VolumeTag = ".data ++ v))))) : List Char) =
      dtLit ++ (' ' :: (numI ++ (":Full (Storage Element ".data ++
        (s ++ (" Loaded):VolumeTag = ".data ++ v))))) := rfl
  have hpfx : (dtLit : List Char).isPrefixOf (dtSpaceLit ++
      (numI ++ (":Full (Storage Element ".data ++
        (s ++ (" Loaded):VolumeTag = ".data ++ v))))) = true := by
    rw [hform]
    exact isPrefixOf_iff.mpr ⟨_, rfl⟩
  have hY : ((' ' :: (numI ++ ":Full (Storage ".data)) ++
        ('E' :: ("lement ".data ++
          (s ++ (" Loaded):VolumeTag = ".data ++ v)))) : List Char) =
      ' ' :: (numI ++ (":Full (Storage Element ".data ++
        (s ++ (" Loaded):VolumeTag = ".data ++ v)))) := by
    rw [List.cons_append, List.append_assoc]
    rfl
  have hdrop21 : ((dtSpaceLit ++ (numI ++ (":Full (Storage Element ".data ++
      (s ++ (" Loaded):VolumeTag = ".data ++ v))))) : List Char).drop 21 =
      ' ' :: (numI ++ (":Full (Storage Element ".data ++
        (s ++ (" Loaded):VolumeTag = ".data ++ v)))) := by
    rw [hform, show (21 : Nat) = (dtLit : List Char).length from rfl,
      List.drop_left]
  have hA0 : ∀ a ∈ ((' ' :: (numI ++ ":Full (Storage ".data)) : List Char),
      a ≠ '\n' := by
    intro a ha
    rcases List.mem_cons.mp ha with h | h
    · rw [h]; decide
    · rcases List.mem_append.mp h with h | h
      · exact digit_not_nl (hnum a h)
      · have hcon : ∀ z ∈ ((":Full (Storage ".data) : List Char), z ≠ '\n' := by
          decide
        exact hcon a h
  have hltm : lastTailMatch (((dtSpaceLit ++ (numI ++
      (":Full (Storage Element ".data ++
        (s ++ (" Loaded):VolumeTag = ".data ++ v))))) : List Char).drop 21) =
      some (0 + (' ' :: (numI ++ ":Full (Storage ".data)).length,
        8 + s.length + 7 + 12 + (2 + v.length), s, v) := by
    rw [hdrop21, ← hY]
    exact lastTailMatch_append_some (lastTailMatch_at hs hs0 hv hv0) hA0
  have hmatch : dteSubMatch (dtSpaceLit ++ (numI ++
      (":Full (Storage Element ".data ++
        (s ++ (" Loaded):VolumeTag = ".data ++ v))))) =
      some (21 + (0 + (' ' :: (numI ++ ":Full (Storage ".data)).length) +
        (8 + s.length + 7 + 12 + (2 + v.length)), s, v) := by
    simp only [dteSubMatch]
    rw [if_pos hpfx, hltm]
    rfl
  rw [dteSub_of_match hmatch]
  have hdropn : ((dtSpaceLit ++ (numI ++ (":Full (Storage Element ".data ++
      (s ++ (" Loaded):VolumeTag = ".data ++ v))))) : List Char).drop
      (21 + (0 + (' ' :: (numI ++ ":Full (Storage ".data)).length) +
        (8 + s.length + 7 + 12 + (2 + v.length))) = [] := by
    refine List.drop_eq_nil_of_le ?_
    simp only [List.length_append, List.length_cons,
      show (dtSpaceLit : List Char).length = 22 from rfl,
      show ((":Full (Storage Element ".data) : List Char).length = 23 from rfl,
      show (((" Loaded):VolumeTag = ".data) : List Char)).length = 21 from rfl,
      show (((":Full (Storage ".data) : List Char)).length = 15 from rfl]
    omega
  rw [hdropn, List.append_nil]

theorem loaded_eq_of_some {text : List Char} {i : Nat} {line s v : List Char}
    {r : List (List Char)}
    (h1 : searchCapture (dteFullLit i) text = some line)
    (h2 : pySplit (dteSub line) = s :: v :: r) :
    loaded text i = .ok (s, v) := by
  unfold loaded
  rw [h1]
  simp only [h2]

theorem loaded_eq_of_none {text : List Char} {i : Nat}
    (h1 : searchCapture (dteFullLit i) text = none) :
    loaded text i = .ok ("0".data, "0".data) := by
  unfold loaded
  rw [h1]

theorem foldr_search_skip {lit : List Char} :
    ∀ {A : List (List Char)}, (∀ l ∈ A, occursB lit l = false) →
      ∀ acc : Option (List Char),
        A.foldr (fun l acc2 =>
          match searchCapture lit l with
          | some cap => some cap
          | none => acc2) acc = acc := by
  intro A
  induction A with
  | nil => intro _ acc; rfl
  | cons l A2 ih =>
    intro hA acc
    rw [List.foldr_cons]
    rw [searchCapture_none (hA l (List.mem_cons_self l A2))]
    exact ih (fun z hz => hA z (List.mem_cons_of_mem l hz)) acc

theorem dteFullLit_ne_nil (i : Nat) : dteFullLit i ≠ [] := by
  have h : dteFullLit i =
      'D' :: ("ata Transfer Element ".data ++ ((Nat.repr i).data ++ fullLit)) := rfl
  rw [h]
  exact List.cons_ne_nil _ _

theorem dteFullLit_nl_free (i : Nat) : ∀ x ∈ dteFullLit i, x ≠ '\n' := by
  intro x hx
  unfold dteFullLit at hx
  rcases List.mem_append.mp hx with h | h
  · have hcon : ∀ z ∈ (dtSpaceLit : List Char), z ≠ '\n' := by decide
    exact hcon x h
  · rcases List.mem_append.mp h with h | h
    · exact digit_not_nl (repr_allDigit i x h)
    · have hcon : ∀ z ∈ (fullLit : List Char), z ≠ '\n' := by decide
      exact hcon x h

/-- On a well-formed status text whose record for drive i is Full with
slot s and volume v (and no earlier record claims index i Full), loaded()
extracts exactly (s, v). -/
theorem loaded_full {i : Nat} {pre post : List (List Char × DriveState)}
    {s v : List Char}
    (hwf : ∀ e ∈ pre ++ ((Nat.repr i).data, DriveState.full s v) :: post, wfEntry e)
    (hpre : ∀ e ∈ pre, ¬(e.1 = (Nat.repr i).data ∧ isFullE e = true)) :
    loaded (renderStatus (pre ++ ((Nat.repr i).data, DriveState.full s v) :: post)) i =
      .ok (s, v) := by
  obtain ⟨hnum, hs, hs0, hv, hv0⟩ :=
    hwf _ (List.mem_append_right pre (List.mem_cons_self _ post))
  have hdc : dteFullLit i ++ (" (Storage Element ".data ++
      (s ++ (" Loaded):VolumeTag = ".data ++ v))) =
      renderDrive ((Nat.repr i).data, DriveState.full s v) := by
    show (dtSpaceLit ++ ((Nat.repr i).data ++ fullLit)) ++
        (" (Storage Element ".data ++ (s ++ (" Loaded):VolumeTag = ".data ++ v))) =
      dtSpaceLit ++ ((Nat.repr i).data ++ (":Full (Storage Element ".data ++
        (s ++ (" Loaded):VolumeTag = ".data ++ v))))
    rw [List.append_assoc, List.append_assoc]
    rfl
  have hTnl : ∀ x ∈ ((" (Storage Element ".data ++
      (s ++ (" Loaded):VolumeTag = ".data ++ v))) : List Char), x ≠ '\n' := by
    intro x hx
    rcases List.mem_append.mp hx with h | h
    · have hcon : ∀ z ∈ ((" (Storage Element ".data) : List Char), z ≠ '\n' := by
        decide
      exact hcon x h
    · rcases List.mem_append.mp h with h | h
      · exact digit_not_nl (hs x h)
      · rcases List.mem_append.mp h with h | h
        · have hcon : ∀ z ∈ ((" Loaded):VolumeTag = ".data) : List Char),
              z ≠ '\n' := by decide
          exact hcon x h
        · exact word_not_nl (hv x h)
  have hcap : searchCapture (dteFullLit i)
      (renderDrive ((Nat.repr i).data, DriveState.full s v)) =
      some (renderDrive ((Nat.repr i).data, DriveState.full s v)) := by
    have hne : renderDrive ((Nat.repr i).data, DriveState.full s v) ≠ [] := by
      rw [← hdc]
      intro he
      exact dteFullLit_ne_nil i (List.append_eq_nil.mp he).1
    rw [searchCapture_at_zero ⟨_, hdc⟩ hne]
    rw [← hdc, List.drop_left, takeToNl_eq_self hTnl]
  have hsearch : searchCapture (dteFullLit i)
      (renderStatus (pre ++ ((Nat.repr i).data, DriveState.full s v) :: post)) =
      some (renderDrive ((Nat.repr i).data, DriveState.full s v)) := by
    unfold renderStatus
    rw [searchCapture_unlines (dteFullLit_ne_nil i) (dteFullLit_nl_free i)
      (fun l hl => by
        obtain ⟨e, he, hle⟩ := List.mem_map.mp hl
        rw [← hle]
        exact renderDrive_nl_free (hwf e he))]
    rw [List.map_append, List.map_cons, List.foldr_append, List.foldr_cons]
    rw [hcap]
    exact foldr_search_skip
      (fun l hl => by
        obtain ⟨e, he, hle⟩ := List.mem_map.mp hl
        rw [← hle]
        exact line_no_hit (repr_allDigit i)
          (hwf e (List.mem_append_left (((Nat.repr i).data,
            DriveState.full s v) :: post) he))
          (hpre e he)) _
  have hsub : dteSub (renderDrive ((Nat.repr i).data, DriveState.full s v)) =
      s ++ ' ' :: v := by
    show dteSub (dtSpaceLit ++ ((Nat.repr i).data ++
      (":Full (Storage Element ".data ++
        (s ++ (" Loaded):VolumeTag = ".data ++ v))))) = s ++ ' ' :: v
    exact dteSub_line (repr_allDigit i) hs hs0 hv hv0
  have hsplit : pySplit (dteSub (renderDrive ((Nat.repr i).data,
      DriveState.full s v))) = s :: v :: [] := by
    rw [hsub]
    exact pySplit_two (fun c hc => digit_not_space (hs c hc)) hs0
      (fun c hc => word_not_space (hv c hc)) hv0
  exact loaded_eq_of_some hsearch hsplit

/-- On a well-formed status text with no Full record for drive i, loaded()
returns the "0", "0" sentinels that report the drive empty. -/
theorem loaded_empty {i : Nat} {entries : List (List Char × DriveState)}
    (hwf : ∀ e ∈ entries, wfEntry e)
    (hno : ∀ e ∈ entries, ¬(e.1 = (Nat.repr i).data ∧ isFullE e = true)) :
    loaded (renderStatus entries) i = .ok ("0".data, "0".data) := by
  refine loaded_eq_of_none ?_
  unfold renderStatus
  rw [searchCapture_unlines (dteFullLit_ne_nil i) (dteFullLit_nl_free i)
    (fun l hl => by
      obtain ⟨e, he, hle⟩ := List.mem_map.mp hl
      rw [← hle]
      exact renderDrive_nl_free (hwf e he))]
  exact foldr_search_skip
    (fun l hl => by
      obtain ⟨e, he, hle⟩ := List.mem_map.mp hl
      rw [← hle]
      exact line_no_hit (repr_allDigit i) (hwf e he) (hno e he)) none

instance (s : List Char) : Decidable (allDigit s) := List.decidableBAll _ s

instance (s : List Char) : Decidable (allWord s) := List.decidableBAll _ s

instance : (e : List Char × DriveState) → Decidable (wfEntry e)
  | (num, DriveState.empty) => inferInstanceAs (Decidable (allDigit num))
  | (num, DriveState.full s v) =>
      inferInstanceAs
        (Decidable (allDigit num ∧ allDigit s ∧ s ≠ [] ∧ allWord v ∧ v ≠ []))

/-! Concrete fixtures used by witness theorems: a tiny but fully realistic
world of one library with two drive bays and two candidate drives, the
second of which is the one that probes ready. -/

def wLib : String := "scsi-SSTK_L80_CHGR"
def wReady : List Char := "ONLINE".data

def wSlotText : List Char :=
  ("Data Transfer Element 0:Empty\n      Storage Element 1:Full :VolumeTag=TAPE01 \n      Storage Element 2:Empty\n").data

def wEmptySlotText : List Char :=
  ("Data Transfer Element 0:Empty\n      Storage Element 1:Empty\n      Storage Element 2:Empty\n").data

def wChangerText : List Char :=
  ("Data Transfer Element 0:Empty\nData Transfer Element 1:Empty\n").data

def wCand1 : Cand := ("scsi-350223344ab000100-nst", "st0", "sg3")
def wCand2 : Cand := ("scsi-350223344ab000200-nst", "st1", "sg4")

def wEnv : Env where
  changerStatus := fun _ => wChangerText
  changerStatusRC := fun _ => 0
  slotStatus := fun _ _ => wSlotText
  pick := fun _ _ => 0
  loadRC := fun _ _ => 0
  driveStatusRC := fun _ _ _ => 0
  driveStatus := fun _ _ d =>
    if d = "scsi-350223344ab000200-nst" then " ONLINE\n".data else " DR_OPEN\n".data
  unloadRC := fun _ _ => 0

def wEnvLoadFail : Env := { wEnv with loadRC := fun _ _ => 2 }

def wEnvEmptySlots : Env := { wEnv with slotStatus := fun _ _ => wEmptySlotText }

def wEnvNoneReady : Env := { wEnv with driveStatus := fun _ _ _ => " DR_OPEN\n".data }

/-- Scenario B text: slot 10 holds a cleaning tape CLN001, slot 11 the
data tape TAPE02 (mtx pads the barcode field, hence the trailing
blank). -/
def c4Text : List Char :=
  ("Data Transfer Element 0:Empty\n      Storage Element 10:Full :VolumeTag=CLN001 \n      Storage Element 11:Full :VolumeTag=TAPE02 \n").data

/-- The one findall match the pipeline leaves of scenario B. -/
def c4Match : List Char := "Storage Element 11:Full :VolumeTag=TAPE02 ".data

/-- A storage-element line with the three-digit slot number 100, occupied
by a non-cleaning tape. -/
def c10Line : List Char := "      Storage Element 100:Full :VolumeTag=TAPE03 ".data

def c10Text : List Char :=
  ("Data Transfer Element 0:Empty\n      Storage Element 100:Full :VolumeTag=TAPE03 \n").data

/-- C1 (corrected), counterexample: on a changer-status text whose
storage-element listing has no Full record, get_random_slot does not
return a "no slot available" value — the pipeline's last grep exits 1,
chk_cmd_result makes that fatal, and the discovery loop run aborts with
exit status 1 instead of stopping the library without error. -/
theorem c1_counterexample :
    get_random_slot wEmptySlotText 0 = .error (.exit 1) ∧
    libIter wEnvEmptySlots wReady wLib 2 0 [wCand1, wCand2] [] =
      .error (.exit 1) := by
  exact ⟨rfl, rfl⟩

/-- C1 (corrected), amended claim: for every changer-status text whose
storage-element listing contains no Full record after excluding cleaning
tapes, the slot-listing pipeline exits 1, so get_random_slot terminates
the whole run with exit status 1 (sys.exit in chk_cmd_result); iteration
of the library stops only because the run itself aborts, leaving the
remaining indices unmapped, not through a graceful no-slot result. -/
theorem c1_no_full_slots_aborts :
    (∀ (text : List Char) (pick : Nat), keptLines text = [] →
      get_random_slot text pick = .error (.exit 1)) ∧
    (∀ (env : Env) (ready : List Char) (lib : String) (nd i : Nat)
      (pool : List Cand) (maps : List (Nat × Cand)),
      i < nd → keptLines (env.slotStatus lib i) = [] →
      libIter env ready lib nd i pool maps = .error (.exit 1)) := by
  constructor
  · intro text pick h
    exact get_random_slot_noFull pick h
  · intro env ready lib nd i pool maps hi h
    exact libIter_stepErr hi (oneIter_slotFail (get_random_slot_noFull _ h))

/-- Witness for c1_no_full_slots_aborts at the concrete empty listing. -/
theorem c1_no_full_slots_aborts_witness :
    keptLines wEmptySlotText = [] ∧ (0 : Nat) < 2 ∧
    libIter wEnvEmptySlots wReady wLib 2 0 [wCand1, wCand2] [] =
      .error (.exit 1) :=
  ⟨rfl, by omega,
    c1_no_full_slots_aborts.2 wEnvEmptySlots wReady wLib 2 0 [wCand1, wCand2] []
      (by omega) rfl⟩

/-- C2: a load command exiting non-zero terminates the whole run with
that command's exit status: the iteration at the failing index returns
exactly that error, recording no mapping for this or any later index, and
the error propagates through the remaining libraries of the run. -/
theorem c2_load_failure_fatal :
    (∀ (env : Env) (ready : List Char) (lib : String) (nd i : Nat)
      (pool : List Cand) (maps : List (Nat × Cand))
      (sv : List Char × List Char) (r : Int),
      i < nd →
      get_random_slot (env.slotStatus lib i) (env.pick lib i) = .ok sv →
      env.loadRC lib i = r → r ≠ 0 →
      libIter env ready lib nd i pool maps = .error (.exit r)) ∧
    (∀ (env : Env) (ready : List Char) (skip : List String) (lib : String)
      (rest : List String) (pool : List Cand)
      (dict : List (String × List (Nat × Cand))) (e : RunErr),
      env.changerStatusRC lib = 0 → lib ∉ skip →
      libIter env ready lib (countLit dtLit (env.changerStatus lib)) 0 pool [] =
        .error e →
      runLibs env ready skip (lib :: rest) pool dict = .error e) := by
  constructor
  · intro env ready lib nd i pool maps sv r hi hg hr hr0
    exact libIter_stepErr hi (oneIter_loadFail hg hr hr0)
  · intro env ready skip lib rest pool dict e hrc hskip hlib
    simp only [runLibs, hrc, hlib]
    simp [hskip]

/-- Witness for c2_load_failure_fatal: a concrete world whose load
command exits 2. -/
theorem c2_load_failure_fatal_witness :
    (2 : Int) ≠ 0 ∧
    libIter wEnvLoadFail wReady wLib 2 0 [wCand1, wCand2] [] =
      .error (.exit 2) ∧
    runLibs wEnvLoadFail wReady [] [wLib] [wCand1, wCand2] [] =
      .error (.exit 2) :=
  ⟨by omega,
    c2_load_failure_fatal.1 wEnvLoadFail wReady wLib 2 0 [wCand1, wCand2] []
      ("1".data, "TAPE01".data) 2 (by omega) rfl rfl (by omega),
    c2_load_failure_fatal.2 wEnvLoadFail wReady [] wLib [] [wCand1, wCand2] []
      (.exit 2) rfl (by simp) rfl⟩

/-- C5: for every completed run the candidates recorded across all
libraries together with the residual pool are a permutation of the
original pool — none lost, none duplicated, none both mapped and residual
— so the mapped count plus the residual size equals the original pool
size. -/
theorem c5_conservation :
    ∀ (env : Env) (ready : List Char) (skip : List String) (libs : List String)
      (pool res : List Cand) (dict : List (String × List (Nat × Cand))),
      runLibs env ready skip libs pool [] = .ok (dict, res) →
      (mappedCands dict ++ res).Perm pool ∧
      (mappedCands dict).length + res.length = pool.length := by
  intro env ready skip libs pool res dict h
  have hp := runLibs_spec h
  have h0 : mappedCands ([] : List (String × List (Nat × Cand))) = [] := rfl
  rw [h0, List.nil_append] at hp
  refine ⟨hp, ?_⟩
  have hl := hp.length_eq
  rw [List.length_append] at hl
  exact hl

/-- Witness for c5_conservation on the concrete one-library world. -/
theorem c5_conservation_witness :
    runLibs wEnv wReady [] [wLib] [wCand1, wCand2] [] =
      .ok ([(wLib, [(0, wCand2)])], [wCand1]) ∧
    (mappedCands [(wLib, [(0, wCand2)])] ++ [wCand1]).Perm [wCand1, wCand2] :=
  ⟨rfl,
    (c5_conservation wEnv wReady [] [wLib] [wCand1, wCand2] [wCand1]
      [(wLib, [(0, wCand2)])] rfl).1⟩

/-- C6: in a probe pass the first candidate in pool order whose status
matches the ready marker is returned, recorded for the current index and
removed from the pool; probing stops there (the candidates after it are
unconstrained), and with distinct candidates the earlier non-ready ones
all remain in the pool. -/
theorem c6_first_ready_recorded :
    ∀ (env : Env) (ready : List Char) (lib : String) (i : Nat)
      (pre post : List Cand) (c : Cand) (sv : List Char × List Char),
      get_random_slot (env.slotStatus lib i) (env.pick lib i) = .ok sv →
      env.loadRC lib i = 0 →
      (∀ d ∈ pre, env.driveStatusRC lib i d.1 = 0 ∧
        isReady ready (env.driveStatus lib i d.1) = false) →
      env.driveStatusRC lib i c.1 = 0 →
      isReady ready (env.driveStatus lib i c.1) = true →
      env.unloadRC lib i = 0 →
      oneIter env ready lib i (pre ++ c :: post) =
        .ok (some (i, c), (pre ++ c :: post).erase c) ∧
      (c ∉ pre → (pre ++ c :: post).erase c = pre ++ post) ∧
      (∀ (nd : Nat) (maps : List (Nat × Cand)), i < nd →
        libIter env ready lib nd i (pre ++ c :: post) maps =
          libIter env ready lib nd (i + 1) ((pre ++ c :: post).erase c)
            (maps ++ [(i, c)])) := by
  intro env ready lib i pre post c sv h1 h2 h3 h4 h5 h6
  have hone := oneIter_match h1 h2 (@probeFind_found env ready lib i pre post c h3 h4 h5) h6
  refine ⟨hone, ?_, ?_⟩
  · intro hcp
    exact erase_append_of_not_mem post hcp
  · intro nd maps hi
    have := @libIter_step env ready lib nd i _ _ maps _ hi hone
    simpa using this

/-- Witness for c6_first_ready_recorded: of the two candidates only the
second reports ready; it is mapped at index 0 and the first stays. -/
theorem c6_first_ready_recorded_witness :
    isReady wReady (wEnv.driveStatus wLib 0 wCand2.1) = true ∧
    oneIter wEnv wReady wLib 0 ([wCand1] ++ wCand2 :: []) =
      .ok (some (0, wCand2), ([wCand1] ++ wCand2 :: []).erase wCand2) ∧
    (wCand2 ∉ [wCand1] → ([wCand1] ++ wCand2 :: []).erase wCand2 = [wCand1] ++ []) :=
  ⟨rfl,
    (c6_first_ready_recorded wEnv wReady wLib 0 [wCand1] [] wCand2
      ("1".data, "TAPE01".data) rfl rfl (by decide) rfl rfl rfl).1,
    (c6_first_ready_recorded wEnv wReady wLib 0 [wCand1] [] wCand2
      ("1".data, "TAPE01".data) rfl rfl (by decide) rfl rfl rfl).2.1⟩

/-- C7: when every candidate still in the pool probes not ready (and the
probe commands themselves succeed), the iteration is not fatal: nothing is
recorded, the pool is unchanged, and the loop continues at the next index
of the same library. -/
theorem c7_no_match_continues :
    ∀ (env : Env) (ready : List Char) (lib : String) (nd i : Nat)
      (pool : List Cand) (maps : List (Nat × Cand)) (sv : List Char × List Char),
      i < nd →
      get_random_slot (env.slotStatus lib i) (env.pick lib i) = .ok sv →
      env.loadRC lib i = 0 →
      (∀ d ∈ pool, env.driveStatusRC lib i d.1 = 0 ∧
        isReady ready (env.driveStatus lib i d.1) = false) →
      libIter env ready lib nd i pool maps =
        libIter env ready lib nd (i + 1) pool maps := by
  intro env ready lib nd i pool maps sv hi h1 h2 h3
  have hone := oneIter_nomatch h1 h2 (probeFind_none h3)
  have := @libIter_step env ready lib nd i _ _ maps _ hi hone
  simpa using this

/-- Witness for c7_no_match_continues: a world where no drive reports
ready; the loop at index 0 just moves on to index 1. -/
theorem c7_no_match_continues_witness :
    (∀ d ∈ [wCand1, wCand2], wEnvNoneReady.driveStatusRC wLib 0 d.1 = 0 ∧
      isReady wReady (wEnvNoneReady.driveStatus wLib 0 d.1) = false) ∧
    libIter wEnvNoneReady wReady wLib 2 0 [wCand1, wCand2] [] =
      libIter wEnvNoneReady wReady wLib 2 1 [wCand1, wCand2] [] :=
  ⟨by decide,
    c7_no_match_continues wEnvNoneReady wReady wLib 2 0 [wCand1, wCand2] []
      ("1".data, "TAPE01".data) (by omega) rfl rfl (by decide)⟩

/-- C8: the mapping list a library's iteration produces carries strictly
increasing, hence unique, drive indices drawn from 0 up to the reported
drive count (the loop counter starts at 0), and its length is bounded by
the drive count since at most one entry is recorded per iteration. -/
theorem c8_indices_strictly_increasing :
    ∀ (env : Env) (ready : List Char) (lib : String) (nd : Nat)
      (pool pool2 : List Cand) (maps : List (Nat × Cand)),
      libIter env ready lib nd 0 pool [] = .ok (maps, pool2) →
      List.Pairwise (· < ·) (maps.map (fun e => e.1)) ∧
      List.Sublist (maps.map (fun e => e.1)) (List.range nd) ∧
      maps.length ≤ nd := by
  intro env ready lib nd pool pool2 maps h
  obtain ⟨δ, hδ, _, hsub⟩ := libIter_spec h
  simp only [List.nil_append] at hδ
  subst hδ
  rw [Nat.sub_zero, ← List.range_eq_range'] at hsub
  refine ⟨List.Pairwise.sublist hsub (List.pairwise_lt_range nd), hsub, ?_⟩
  have := hsub.length_le
  simpa using this

/-- Witness for c8_indices_strictly_increasing on the concrete run. -/
theorem c8_indices_strictly_increasing_witness :
    libIter wEnv wReady wLib 2 0 [wCand1, wCand2] [] =
      .ok ([(0, wCand2)], [wCand1]) ∧
    List.Pairwise (· < ·) ([(0, wCand2)].map (fun e => e.1)) :=
  ⟨rfl,
    (c8_indices_strictly_increasing wEnv wReady wLib 2 [wCand1, wCand2] [wCand1]
      [(0, wCand2)] rfl).1⟩

/-- C9: the discovery loop is finite by construction — it is a total
function — and the quantities the claim names behave as stated: a
successful match strictly shrinks the pool, every non-fatal iteration
advances the index by one regardless of match outcome, and the number of
entries a library's iteration can add is bounded by its reported drive
count. -/
theorem c9_termination :
    (∀ (env : Env) (ready : List Char) (lib : String) (i : Nat)
      (pool pool2 : List Cand) (e : Nat × Cand),
      oneIter env ready lib i pool = .ok (some e, pool2) →
      pool2.length < pool.length) ∧
    (∀ (env : Env) (ready : List Char) (lib : String) (nd i : Nat)
      (pool pool2 : List Cand) (maps : List (Nat × Cand)) (o : Option (Nat × Cand)),
      i < nd → oneIter env ready lib i pool = .ok (o, pool2) →
      libIter env ready lib nd i pool maps =
        libIter env ready lib nd (i + 1) pool2 (maps ++ o.toList)) ∧
    (∀ (env : Env) (ready : List Char) (lib : String) (nd i : Nat)
      (pool pool2 : List Cand) (maps maps2 : List (Nat × Cand)),
      libIter env ready lib nd i pool maps = .ok (maps2, pool2) →
      maps2.length ≤ maps.length + (nd - i)) := by
  refine ⟨?_, ?_, ?_⟩
  · intro env ready lib i pool pool2 e h
    rcases oneIter_ok_inv h with ⟨hn, _⟩ | ⟨c, _, hcm, hpe⟩
    · simp at hn
    · subst hpe
      have := (perm_cons_erase_beq hcm).length_eq
      simp only [List.length_cons] at this
      omega
  · intro env ready lib nd i pool pool2 maps o hi h
    exact libIter_step hi h
  · intro env ready lib nd i pool pool2 maps maps2 h
    obtain ⟨δ, hδ, _, hsub⟩ := libIter_spec h
    subst hδ
    have h1 := hsub.length_le
    simp only [List.length_map, List.length_range'] at h1
    simp only [List.length_append]
    omega

/-- Witness for c9_termination on the concrete run: the match at index 0
shrinks the pool from two to one. -/
theorem c9_termination_witness :
    oneIter wEnv wReady wLib 0 [wCand1, wCand2] = .ok (some (0, wCand2), [wCand1]) ∧
    ([wCand1] : List Cand).length < ([wCand1, wCand2] : List Cand).length :=
  ⟨rfl,
    c9_termination.1 wEnv wReady wLib 0 [wCand1, wCand2] [wCand1] (0, wCand2) rfl⟩

/-- C4: get_random_slot never selects a slot whose line carries a
cleaning-tape label: every successful pick comes from a findall match over
the grep-kept lines, and neither the match nor the returned volume
contains "CLN"; on the scenario-B text (slot 10 a CLN tape, slot 11
TAPE02) every draw returns slot 11 with volume TAPE02. -/
theorem c4_no_cleaning_selected :
    (∀ (text : List Char) (pick : Nat) (s v : List Char),
      get_random_slot text pick = .ok (s, v) →
      ∃ m ∈ pyFindallSE (unlines (keptLines text)),
        s = subSlot m ∧ v = rstrip (subVol m) ∧
        occursB clnLit m = false ∧ occursB clnLit v = false) ∧
    (∀ pick : Nat, get_random_slot c4Text pick = .ok ("11".data, "TAPE02".data)) := by
  constructor
  · intro text pick s v h
    obtain ⟨m, hmem, hs, hv⟩ := get_random_slot_ok_inv h
    obtain ⟨hinf, hnl, hne⟩ := pyFindallSE_mem_props hmem
    obtain ⟨l, hl, hml⟩ := infix_unlines_mem hnl hne hinf
    have hlc := keptLines_no_cln hl
    have hmc : occursB clnLit m = false := by
      rw [Bool.eq_false_iff]
      intro hb
      have h2 := occursB_infix_iff.mpr ((occursB_infix_iff.mp hb).trans hml)
      rw [hlc] at h2
      exact Bool.false_ne_true h2
    have hvm : v <:+: m := hv ▸ subVol_rstrip_infix hnl
    have hvc : occursB clnLit v = false := by
      rw [Bool.eq_false_iff]
      intro hb
      have h2 := occursB_infix_iff.mpr
        (((occursB_infix_iff.mp hb).trans hvm).trans hml)
      rw [hlc] at h2
      exact Bool.false_ne_true h2
    exact ⟨m, hmem, hs, hv, hmc, hvc⟩
  · intro pick
    have h0 : ¬ pipeRC c4Text ≠ 0 := by decide
    have hlst : pyFindallSE (unlines (keptLines c4Text)) = [c4Match] := by decide
    unfold get_random_slot
    rw [if_neg h0, hlst]
    unfold pickSlot
    rw [if_neg (by decide : ¬([c4Match] = []))]
    rw [show ([c4Match] : List (List Char)).length = 1 from rfl, Nat.mod_one]
    rfl

/-- Witness for c4_no_cleaning_selected: the scenario-B pick instantiates
the universal part at a concrete text. -/
theorem c4_no_cleaning_selected_witness :
    get_random_slot c4Text 0 = .ok ("11".data, "TAPE02".data) ∧
    ∃ m ∈ pyFindallSE (unlines (keptLines c4Text)),
      "11".data = subSlot m ∧ "TAPE02".data = rstrip (subVol m) ∧
      occursB clnLit m = false ∧ occursB clnLit "TAPE02".data = false :=
  ⟨c4_no_cleaning_selected.2 0,
    c4_no_cleaning_selected.1 c4Text 0 "11".data "TAPE02".data
      (c4_no_cleaning_selected.2 0)⟩

/-- C10: the findall pattern respects at most two characters for the slot
number, so a successful pick always returns a slot string of one or two
characters, never a three-digit slot; yet the grep filter admits the
three-digit line, and a listing whose only occupied slot is number 100
makes the findall list empty so get_random_slot raises ValueError rather
than ever selecting that slot. -/
theorem c10_three_digit_never_selected :
    (∀ (text : List Char) (pick : Nat) (s v : List Char),
      get_random_slot text pick = .ok (s, v) → 1 ≤ s.length ∧ s.length ≤ 2) ∧
    grepSE13 c10Line = true ∧
    (∀ pick : Nat, get_random_slot c10Text pick = .error .valueError) := by
  refine ⟨?_, by decide, ?_⟩
  · intro text pick s v h
    exact get_random_slot_slot_shape h
  · intro pick
    have h0 : ¬ pipeRC c10Text ≠ 0 := by decide
    have hlst : pyFindallSE (unlines (keptLines c10Text)) = [] := by decide
    unfold get_random_slot
    rw [if_neg h0, hlst]
    rfl

/-- Witness for c10_three_digit_never_selected at the concrete two-slot
world: the returned slot string "1" has length one. -/
theorem c10_three_digit_never_selected_witness :
    get_random_slot wSlotText 0 = .ok ("1".data, "TAPE01".data) ∧
    1 ≤ ("1".data).length ∧ ("1".data).length ≤ 2 :=
  ⟨rfl,
    c10_three_digit_never_selected.1 wSlotText 0 "1".data "TAPE01".data rfl⟩

/-- Scenario A records: drive 0 Full with storage element 12 and volume
TAPE01, drive 1 empty. -/
def c3Entries : List (List Char × DriveState) :=
  [("0".data, DriveState.full "12".data "TAPE01".data),
   ("1".data, DriveState.empty)]

/-- C3: on every well-formed changer-status text whose transfer-element
record for drive index i is marked Full with source element s and volume
tag v (and whose earlier records do not claim index i Full), loaded()
returns exactly (s, v); on every such text with no Full record for index
i it returns the "0", "0" sentinels reporting the drive empty. -/
theorem c3_occupancy_parsing (i : Nat) (entries : List (List Char × DriveState))
    (hwf : ∀ e ∈ entries, wfEntry e) :
    (∀ pre post s v,
        entries = pre ++ ((Nat.repr i).data, DriveState.full s v) :: post →
        (∀ e ∈ pre, ¬(e.1 = (Nat.repr i).data ∧ isFullE e = true)) →
        loaded (renderStatus entries) i = .ok (s, v)) ∧
    ((∀ e ∈ entries, ¬(e.1 = (Nat.repr i).data ∧ isFullE e = true)) →
        loaded (renderStatus entries) i = .ok ("0".data, "0".data)) := by
  constructor
  · intro pre post s v hdec hpre
    subst hdec
    exact loaded_full hwf hpre
  · intro hno
    exact loaded_empty hwf hno

/-- Witness for c3_occupancy_parsing at the Scenario A text: drive 0
yields ("12", "TAPE01"), drive 1 yields the empty sentinels. -/
theorem c3_occupancy_parsing_witness :
    loaded (renderStatus c3Entries) 0 = .ok ("12".data, "TAPE01".data) ∧
    loaded (renderStatus c3Entries) 1 = .ok ("0".data, "0".data) := by
  constructor
  · exact (c3_occupancy_parsing 0 c3Entries (by decide)).1 []
      [("1".data, DriveState.empty)] "12".data "TAPE01".data rfl (by decide)
  · exact (c3_occupancy_parsing 1 c3Entries (by decide)).2 (by decide)

end BRAC
